import Mathlib

/-
  A shallow embedding of the transport layer of the club repository
  (src/club/transport/ack_set.h and src/club/transport/transmit_queue.h),
  together with proofs of the specification claims about it.
-/

namespace Club

/-- The size of the 32-bit sequence-number space. -/
def W : Nat := 4294967296

/-- Half of the sequence-number space, the threshold for the signed
interpretation of a 32-bit difference. -/
def HALF : Nat := 2147483648

/-- Modelled from the spec: comparison of `SequenceNumber`s (the file
sequence_number.h is not among the sources).  Per the spec, sequence numbers
are unsigned 32-bit counters and comparisons are modular: `a < b` iff
`(b - a)` interpreted as signed 32-bit is positive and non-zero. -/
def sn_lt (a b : Nat) : Bool :=
  decide (0 < (b % W + W - a % W) % W ∧ (b % W + W - a % W) % W < HALF)

/-- The state of `club::transport::AckSet` (ack_set.h lines 70-74): the
highest and lowest observed sequence numbers, a 31-bit predecessors bitmap
(bit i set means `highest - (i+1)` was observed) and an emptiness flag. -/
structure AckSet where
  highest_sequence_number : Nat
  lowest_sequence_number : Nat
  predecessors : Nat
  is_empty : Bool
deriving DecidableEq

/-- The `AckSet` default constructor (ack_set.h lines 80-83): it sets
`predecessors := 0` and `is_empty := true`.  The two sequence-number fields
are left uninitialized by the C++ constructor and are never read while the
set is empty; the model initializes them to 0. -/
def AckSet.init : AckSet :=
  { highest_sequence_number := 0
  , lowest_sequence_number := 0
  , predecessors := 0
  , is_empty := true }

/-- The guard loop of `AckSet::try_add` (ack_set.h lines 115-119): for every
`i < n` the shift of the predecessors bitmap must either discard a position
below the initial window (`hsn < lowest_sequence_number + 31 - i`, a modular
sequence-number comparison) or discard a bit that is actually set
(`predecessors & (1 << (30 - i))`).  The value is the conjunction of the
loop conditions; the C++ loop returns false as soon as one fails. -/
def AckSet.advance_guard (s : AckSet) : Nat → Bool
  | 0 => true
  | n + 1 =>
      s.advance_guard n &&
        (sn_lt s.highest_sequence_number ((s.lowest_sequence_number + 31 + W - n) % W)
          || s.predecessors.testBit (30 - n))

/-- `AckSet::try_add` (ack_set.h lines 85-130).  All sequence-number
arithmetic is 32-bit modular (`% W`); every assignment to the 31-bit
`predecessors` bitfield truncates with `% 2^31`.  The `was_empty` save and
restore of the C++ code (lines 121-125) has no net effect on `is_empty`
(the branch is only reached with `is_empty` already false), so the model
leaves `is_empty` unchanged there. -/
def AckSet.try_add (s : AckSet) (new_sn : Nat) : Bool × AckSet :=
  if s.is_empty then
    (true, { highest_sequence_number := new_sn
           , lowest_sequence_number := new_sn
           , predecessors := 0
           , is_empty := false })
  else
    let hsn := s.highest_sequence_number
    if new_sn = hsn then
      (true, s)
    else if sn_lt new_sn hsn then
      if sn_lt new_sn ((hsn + W - 31) % W) then
        (true, s)
      else
        (true, { s with predecessors :=
                  (s.predecessors ||| (1 <<< ((hsn + W - new_sn) % W - 1))) % 2 ^ 31 })
    else
      if sn_lt ((hsn + 31) % W) new_sn then
        (false, s)
      else
        let shift := (new_sn + W - hsn) % W
        if s.advance_guard shift then
          (true, { s with
                   highest_sequence_number := new_sn
                 , predecessors :=
                     (((s.predecessors <<< shift) % 2 ^ 31) ||| (1 <<< (shift - 1))) % 2 ^ 31 })
        else
          (false, s)

/-- The body of `AckSet::iterator::operator++` (ack_set.h lines 37-40):
`while (pos < 32 && (predecessors & (1 << (++pos - 1))) == 0) {}`.
The fuel argument bounds the loop; 32 steps always suffice since `pos`
increases at every step and the loop stops at 32. -/
def AckSet.iter_inc_go (s : AckSet) : Nat → Nat → Nat
  | 0, pos => pos
  | fuel + 1, pos =>
      if pos < 32 then
        if s.predecessors.testBit ((pos + 1) - 1) then pos + 1
        else s.iter_inc_go fuel (pos + 1)
      else pos

/-- One step of the `AckSet` iterator. -/
def AckSet.iter_inc (s : AckSet) (pos : Nat) : Nat :=
  s.iter_inc_go 32 pos

/-- `AckSet::iterator::operator*` (ack_set.h lines 32-35): the element at
position `pos` is `highest_sequence_number - pos`, a modular 32-bit value. -/
def AckSet.deref (s : AckSet) (pos : Nat) : Nat :=
  (s.highest_sequence_number + W - pos) % W

/-- Iterating from position `pos` to `end()` (position 32), collecting the
dereferenced elements.  A fuel of 33 covers every run from position 0. -/
def AckSet.toList_go (s : AckSet) : Nat → Nat → List Nat
  | 0, _ => []
  | fuel + 1, pos =>
      if pos = 32 then []
      else s.deref pos :: s.toList_go fuel (s.iter_inc pos)

/-- The sequence of elements yielded by iterating the `AckSet` from
`begin()` to `end()` (ack_set.h lines 60-65): empty sets start at `end()`,
non-empty sets start at position 0. -/
def AckSet.toList (s : AckSet) : List Nat :=
  if s.is_empty then [] else s.toList_go 33 0

/-- The set of sequence numbers represented by an `AckSet` per the spec
data model: nothing when empty, otherwise `highest` together with
`highest - (i+1)` for every set bit `i` of the predecessors bitmap. -/
def AckSet.represents (s : AckSet) (x : Nat) : Bool :=
  !s.is_empty &&
    (x == s.highest_sequence_number ||
      (List.range 31).any fun i =>
        s.predecessors.testBit i && x == (s.highest_sequence_number + W - (i + 1)) % W)

/-- Calling `try_add` successively on every element of a list, returning
the conjunction of all results together with the final state. -/
def AckSet.add_all (s : AckSet) : List Nat → Bool × AckSet
  | [] => (true, s)
  | x :: xs =>
      let r := s.try_add x
      let r2 := r.2.add_all xs
      (r.1 && r2.1, r2.2)

theorem sn_lt_self (a : Nat) : sn_lt a a = false := by
  simp [sn_lt, W, HALF]

theorem sn_lt_true_of_window (a b : Nat) (h1 : a < b) (h2 : b ≤ a + 31) (hb : b < W) :
    sn_lt a b = true := by
  simp [sn_lt, W, HALF] at *
  omega

theorem sn_lt_false_of_window (a b : Nat) (h1 : a ≤ b) (h2 : b ≤ a + 31) (hb : b < W) :
    sn_lt b a = false := by
  simp [sn_lt, W, HALF] at *
  omega

theorem sn_lt_floor_false_of_window (a b : Nat) (h1 : a < b) (h2 : b ≤ a + 31) (hb : b < W) :
    sn_lt a ((b + W - 31) % W) = false := by
  simp [sn_lt, W, HALF] at *
  omega

theorem try_add_eq_self (s : AckSet) (he : s.is_empty = false) :
    s.try_add s.highest_sequence_number = (true, s) := by
  simp [AckSet.try_add, he]

theorem try_add_below (s : AckSet) (y : Nat) (he : s.is_empty = false)
    (hh : s.highest_sequence_number < W)
    (h1 : y < s.highest_sequence_number) (h2 : s.highest_sequence_number ≤ y + 31) :
    s.try_add y = (true, { s with predecessors :=
      (s.predecessors ||| (1 <<< (s.highest_sequence_number - y - 1))) % 2 ^ 31 }) := by
  have hne : ¬ (y = s.highest_sequence_number) := Nat.ne_of_lt h1
  have ha : sn_lt y s.highest_sequence_number = true :=
    sn_lt_true_of_window y s.highest_sequence_number h1 h2 hh
  have hb : sn_lt y ((s.highest_sequence_number + W - 31) % W) = false :=
    sn_lt_floor_false_of_window y s.highest_sequence_number h1 h2 hh
  have harith : (s.highest_sequence_number + W - y) % W = s.highest_sequence_number - y := by
    simp [W] at *
    omega
  simp [AckSet.try_add, he, hne, ha, hb, harith]

theorem try_add_above (s : AckSet) (y : Nat) (he : s.is_empty = false)
    (hh : s.highest_sequence_number < W) (hy : y < W)
    (h1 : s.highest_sequence_number < y) (h2 : y ≤ s.highest_sequence_number + 31) :
    s.try_add y =
      if s.advance_guard (y - s.highest_sequence_number) then
        (true, { s with
                 highest_sequence_number := y,
                 predecessors :=
                   (((s.predecessors <<< (y - s.highest_sequence_number)) % 2 ^ 31)
                     ||| (1 <<< (y - s.highest_sequence_number - 1))) % 2 ^ 31 })
      else (false, s) := by
  have hne : ¬ (y = s.highest_sequence_number) := Nat.ne_of_gt h1
  have ha : sn_lt y s.highest_sequence_number = false :=
    sn_lt_false_of_window s.highest_sequence_number y (Nat.le_of_lt h1) h2 hy
  have hb : sn_lt ((s.highest_sequence_number + 31) % W) y = false := by
    simp [sn_lt, W, HALF] at *
    omega
  have harith : (y + W - s.highest_sequence_number) % W = y - s.highest_sequence_number := by
    simp [W] at *
    omega
  simp [AckSet.try_add, he, hne, ha, hb, harith]

theorem advance_guard_true_of_window (s : AckSet)
    (hle : s.lowest_sequence_number ≤ s.highest_sequence_number)
    (hh : s.highest_sequence_number < W) :
    ∀ k, s.highest_sequence_number + k ≤ s.lowest_sequence_number + 31 →
      s.advance_guard k = true := by
  intro k
  induction k with
  | zero => intro _; rfl
  | succ n ih =>
      intro hc
      have h1 : s.advance_guard n = true := ih (by omega)
      have h2 : sn_lt s.highest_sequence_number
          ((s.lowest_sequence_number + 31 + W - n) % W) = true := by
        simp [sn_lt, W, HALF] at *
        omega
      simp [AckSet.advance_guard, h1, h2]

/-- The invariant tying an `AckSet` state to the list `P` of sequence numbers
added so far (all within one 31-wide window): the set is non-empty, `highest`
is the maximum of `P`, `lowest` is a member of `P`, the bitmap fits in 31
bits, and bit `i` is set exactly when `highest - (i+1)` is a member of `P`. -/
def InvP (P : List Nat) (s : AckSet) : Prop :=
  s.is_empty = false ∧
  s.highest_sequence_number ∈ P ∧
  s.lowest_sequence_number ∈ P ∧
  (∀ x ∈ P, x ≤ s.highest_sequence_number) ∧
  s.predecessors < 2 ^ 31 ∧
  (∀ i, i < 31 →
    (s.predecessors.testBit i = true ↔ ∃ x ∈ P, x + i + 1 = s.highest_sequence_number))

theorem try_add_invP (P : List Nat) (s : AckSet) (y : Nat)
    (inv : InvP P s) (hPW : ∀ x ∈ P, x < W) (hyW : y < W)
    (hc1 : ∀ x ∈ P, x ≤ y + 31) (hc2 : ∀ x ∈ P, y ≤ x + 31) :
    (s.try_add y).1 = true ∧ InvP (P ++ [y]) (s.try_add y).2 := by
  obtain ⟨he, hhP, hlP, hmax, hpred, hbits⟩ := inv
  have hhW : s.highest_sequence_number < W := hPW _ hhP
  rcases Nat.lt_trichotomy y s.highest_sequence_number with hlt | heq | hgt
  · -- y below the current highest: a predecessor bit is set
    have hup : s.highest_sequence_number ≤ y + 31 := hc1 _ hhP
    rw [try_add_below s y he hhW hlt hup]
    refine ⟨rfl, ?_⟩
    dsimp only [InvP]
    refine ⟨he, List.mem_append_left _ hhP, List.mem_append_left _ hlP, ?_, ?_, ?_⟩
    · intro x hx
      rcases List.mem_append.mp hx with hx | hx
      · exact hmax x hx
      · simp only [List.mem_singleton] at hx
        omega
    · exact Nat.mod_lt _ (by positivity)
    · intro i hi
      simp only [Nat.testBit_mod_two_pow, Nat.one_shiftLeft, Nat.testBit_or,
        Nat.testBit_two_pow, hi, decide_True, Bool.true_and, Bool.or_eq_true,
        decide_eq_true_eq]
      constructor
      · rintro (hb | hdi)
        · obtain ⟨x, hx, hxe⟩ := (hbits i hi).mp hb
          exact ⟨x, List.mem_append_left _ hx, hxe⟩
        · exact ⟨y, List.mem_append_right _ (List.mem_singleton_self y), by omega⟩
      · rintro ⟨x, hx, hxe⟩
        rcases List.mem_append.mp hx with hx | hx
        · exact Or.inl ((hbits i hi).mpr ⟨x, hx, hxe⟩)
        · simp only [List.mem_singleton] at hx
          subst hx
          exact Or.inr (by omega)
  · -- y equals the current highest: a no-op
    rw [heq, try_add_eq_self s he]
    refine ⟨rfl, ?_⟩
    dsimp only [InvP]
    refine ⟨he, List.mem_append_left _ hhP, List.mem_append_left _ hlP, ?_, hpred, ?_⟩
    · intro x hx
      rcases List.mem_append.mp hx with hx | hx
      · exact hmax x hx
      · simp only [List.mem_singleton] at hx
        omega
    · intro i hi
      rw [hbits i hi]
      constructor
      · rintro ⟨x, hx, hxe⟩
        exact ⟨x, List.mem_append_left _ hx, hxe⟩
      · rintro ⟨x, hx, hxe⟩
        rcases List.mem_append.mp hx with hx | hx
        · exact ⟨x, hx, hxe⟩
        · simp only [List.mem_singleton] at hx
          subst hx
          exact absurd hxe (by omega)
  · -- y above the current highest: the window advances
    have hup : y ≤ s.highest_sequence_number + 31 := hc2 _ hhP
    have hlle : s.lowest_sequence_number ≤ s.highest_sequence_number := hmax _ hlP
    have hguard : s.advance_guard (y - s.highest_sequence_number) = true :=
      advance_guard_true_of_window s hlle hhW _ (by have := hc2 _ hlP; omega)
    rw [try_add_above s y he hhW hyW hgt hup, if_pos hguard]
    have hk1 : 1 ≤ y - s.highest_sequence_number := by omega
    have hk2 : y - s.highest_sequence_number ≤ 31 := by omega
    refine ⟨rfl, ?_⟩
    dsimp only [InvP]
    refine ⟨he, List.mem_append_right _ (List.mem_singleton_self y),
      List.mem_append_left _ hlP, ?_, ?_, ?_⟩
    · intro x hx
      rcases List.mem_append.mp hx with hx | hx
      · exact Nat.le_of_lt (Nat.lt_of_le_of_lt (hmax x hx) hgt)
      · simp only [List.mem_singleton] at hx
        omega
    · exact Nat.mod_lt _ (by positivity)
    · intro i hi
      simp only [Nat.testBit_mod_two_pow, Nat.one_shiftLeft, Nat.testBit_or,
        Nat.testBit_shiftLeft, Nat.testBit_two_pow, hi, decide_True, Bool.true_and,
        Bool.or_eq_true, Bool.and_eq_true, decide_eq_true_eq]
      constructor
      · rintro (⟨hki, hb⟩ | hdi)
        · have hik : i - (y - s.highest_sequence_number) < 31 := by omega
          obtain ⟨x, hx, hxe⟩ := (hbits _ hik).mp hb
          exact ⟨x, List.mem_append_left _ hx, by omega⟩
        · exact ⟨s.highest_sequence_number, List.mem_append_left _ hhP, by omega⟩
      · rintro ⟨x, hx, hxe⟩
        rcases List.mem_append.mp hx with hx | hx
        · have hxh : x ≤ s.highest_sequence_number := hmax x hx
          by_cases hcase : i + 1 = y - s.highest_sequence_number
          · exact Or.inr (by omega)
          · have hge : y - s.highest_sequence_number ≤ i := by omega
            have hik : i - (y - s.highest_sequence_number) < 31 := by omega
            exact Or.inl ⟨hge, (hbits _ hik).mpr ⟨x, hx, by omega⟩⟩
        · simp only [List.mem_singleton] at hx
          subst hx
          exact absurd hxe (by omega)

theorem add_all_invP :
    ∀ (rest P : List Nat) (s : AckSet), InvP P s →
      (∀ x ∈ P ++ rest, x < W) →
      (∀ x ∈ P ++ rest, ∀ y ∈ P ++ rest, x ≤ y + 31) →
      (s.add_all rest).1 = true ∧ InvP (P ++ rest) (s.add_all rest).2 := by
  intro rest
  induction rest with
  | nil =>
      intro P s inv _ _
      simpa [AckSet.add_all] using inv
  | cons y ys ih =>
      intro P s inv hW hpair
      have hyP : y ∈ P ++ y :: ys := List.mem_append_right _ (List.mem_cons_self y ys)
      have step := try_add_invP P s y inv
        (fun x hx => hW x (List.mem_append_left _ hx)) (hW y hyP)
        (fun x hx => hpair x (List.mem_append_left _ hx) y hyP)
        (fun x hx => hpair y hyP x (List.mem_append_left _ hx))
      obtain ⟨r1, rinv⟩ := step
      have hmem : ∀ z, z ∈ (P ++ [y]) ++ ys ↔ z ∈ P ++ y :: ys := by
        intro z
        simp [List.mem_append, List.mem_cons, or_assoc]
      have rec := ih (P ++ [y]) (s.try_add y).2 rinv
        (fun x hx => hW x ((hmem x).mp hx))
        (fun x hx z hz => hpair x ((hmem x).mp hx) z ((hmem z).mp hz))
      obtain ⟨rec1, recinv⟩ := rec
      constructor
      · simp [AckSet.add_all, r1, rec1]
      · have : (P ++ [y]) ++ ys = P ++ y :: ys := by simp
        rw [this] at recinv
        simpa [AckSet.add_all] using recinv

theorem iter_inc_go_32 (s : AckSet) : ∀ fuel, s.iter_inc_go fuel 32 = 32 := by
  intro fuel
  cases fuel with
  | zero => rfl
  | succ n => simp [AckSet.iter_inc_go]

theorem iter_inc_go_spec (s : AckSet) :
    ∀ fuel pos, 32 ≤ pos + fuel → pos < 32 →
      pos < s.iter_inc_go fuel pos ∧ s.iter_inc_go fuel pos ≤ 32 ∧
      (∀ q, pos < q → q < s.iter_inc_go fuel pos →
        s.predecessors.testBit (q - 1) = false) ∧
      (s.iter_inc_go fuel pos = 32 ∨
        s.predecessors.testBit (s.iter_inc_go fuel pos - 1) = true) := by
  intro fuel
  induction fuel with
  | zero => intro pos h1 h2; omega
  | succ n ih =>
      intro pos h1 h2
      by_cases hbit : s.predecessors.testBit ((pos + 1) - 1) = true
      · rw [AckSet.iter_inc_go, if_pos h2, if_pos hbit]
        refine ⟨Nat.lt_succ_self pos, by omega, by intro q hq1 hq2; omega, Or.inr ?_⟩
        simpa using hbit
      · rw [AckSet.iter_inc_go, if_pos h2,
          if_neg hbit]
        by_cases h32 : pos + 1 < 32
        · obtain ⟨ih1, ih2, ih3, ih4⟩ := ih (pos + 1) (by omega) h32
          refine ⟨by omega, ih2, ?_, ih4⟩
          intro q hq1 hq2
          by_cases hq : q = pos + 1
          · subst hq
            simpa using (Bool.not_eq_true _).mp hbit
          · exact ih3 q (by omega) hq2
        · have hpos : pos + 1 = 32 := by omega
          rw [hpos, iter_inc_go_32]
          exact ⟨by omega, by omega, by intro q hq1 hq2; omega, Or.inl rfl⟩

theorem toList_go_spec (s : AckSet)
    (hW : s.highest_sequence_number < W)
    (hbits : ∀ i, i < 31 → s.predecessors.testBit i = true →
      i + 1 ≤ s.highest_sequence_number) :
    ∀ fuel pos, 33 ≤ pos + fuel → pos ≤ 32 →
      (pos < 32 → pos = 0 ∨ s.predecessors.testBit (pos - 1) = true) →
      (s.toList_go fuel pos).Pairwise (· > ·) ∧
      (∀ x, x ∈ s.toList_go fuel pos ↔
        ∃ p, pos ≤ p ∧ p < 32 ∧ (p = pos ∨ s.predecessors.testBit (p - 1) = true) ∧
          x = s.highest_sequence_number - p) := by
  intro fuel
  induction fuel with
  | zero => intro pos h1 h2 _; omega
  | succ n ih =>
      intro pos h1 h2 hgood
      by_cases hp32 : pos = 32
      · subst hp32
        rw [AckSet.toList_go, if_pos rfl]
        constructor
        · exact List.Pairwise.nil
        · intro x
          simp only [List.not_mem_nil, false_iff]
          rintro ⟨p, hp1, hp2, _, _⟩
          omega
      · have hlt : pos < 32 := by omega
        rw [AckSet.toList_go, if_neg hp32]
        have hple : pos ≤ s.highest_sequence_number := by
          rcases hgood hlt with h0 | hb
          · omega
          · have := hbits (pos - 1) (by omega) hb
            omega
        have hderef : s.deref pos = s.highest_sequence_number - pos := by
          have hW2 : s.highest_sequence_number < 4294967296 := by
            simpa [W] using hW
          simp only [AckSet.deref, W]
          omega
        obtain ⟨hi1, hi2, hi3, hi4⟩ := iter_inc_go_spec s 32 pos (by omega) hlt
        have hi1' : pos < s.iter_inc pos := hi1
        have hi2' : s.iter_inc pos ≤ 32 := hi2
        have hi3' : ∀ q, pos < q → q < s.iter_inc pos →
            s.predecessors.testBit (q - 1) = false := hi3
        have hi4' : s.iter_inc pos = 32 ∨
            s.predecessors.testBit (s.iter_inc pos - 1) = true := hi4
        have hrec := ih (s.iter_inc pos) (by omega) hi2' (by
            intro hlt2
            rcases hi4' with h32 | hb
            · omega
            · exact Or.inr hb)
        obtain ⟨hpw, hmem⟩ := hrec
        have hbound : ∀ p, p < 32 → (p = s.iter_inc pos ∨ s.predecessors.testBit (p - 1) = true) →
            s.iter_inc pos ≤ p → p ≤ s.highest_sequence_number := by
          intro p hp hgp hgep
          rcases hgp with hpe | hb
          · subst hpe
            rcases hi4' with h32 | hb
            · omega
            · have := hbits (s.iter_inc pos - 1) (by omega) hb
              omega
          · have := hbits (p - 1) (by omega) hb
            omega
        constructor
        · rw [List.pairwise_cons]
          refine ⟨?_, hpw⟩
          intro b hb
          obtain ⟨p, hp1, hp2, hp3, hp4⟩ := (hmem b).mp hb
          have hpleh : p ≤ s.highest_sequence_number := hbound p hp2 hp3 hp1
          rw [hderef, hp4]
          omega
        · intro x
          simp only [List.mem_cons]
          constructor
          · rintro (hx | hx)
            · exact ⟨pos, Nat.le_refl pos, hlt, Or.inl rfl, by rw [hx, hderef]⟩
            · obtain ⟨p, hp1, hp2, hp3, hp4⟩ := (hmem x).mp hx
              have hposp : pos < p := by omega
              refine ⟨p, by omega, hp2, ?_, hp4⟩
              rcases hp3 with hpe | hb
              · subst hpe
                rcases hi4' with h32 | hb
                · omega
                · exact Or.inr hb
              · exact Or.inr hb
          · rintro ⟨p, hp1, hp2, hp3, hp4⟩
            by_cases hpe : p = pos
            · subst hpe
              exact Or.inl (by rw [hp4, hderef])
            · have hposp : pos < p := by omega
              have hb : s.predecessors.testBit (p - 1) = true := by
                rcases hp3 with h | h
                · omega
                · exact h
              right
              rw [hmem x]
              have hpge : s.iter_inc pos ≤ p := by
                by_contra hcon
                have := hi3' p hposp (by omega)
                rw [this] at hb
                exact Bool.false_ne_true hb
              exact ⟨p, hpge, hp2, Or.inr hb, hp4⟩

theorem toList_spec (s : AckSet) (he : s.is_empty = false)
    (hW : s.highest_sequence_number < W)
    (hbits : ∀ i, i < 31 → s.predecessors.testBit i = true →
      i + 1 ≤ s.highest_sequence_number) :
    s.toList.Pairwise (· > ·) ∧
    (∀ x, x ∈ s.toList ↔ (x = s.highest_sequence_number ∨
      ∃ i, i < 31 ∧ s.predecessors.testBit i = true ∧
        x + i + 1 = s.highest_sequence_number)) := by
  have hspec := toList_go_spec s hW hbits 33 0 (by omega) (by omega) (fun _ => Or.inl rfl)
  obtain ⟨hpw, hmem⟩ := hspec
  have htl : s.toList = s.toList_go 33 0 := by
    simp [AckSet.toList, he]
  constructor
  · rw [htl]; exact hpw
  · intro x
    rw [htl, hmem x]
    constructor
    · rintro ⟨p, _, hp2, hp3, hp4⟩
      by_cases hp0 : p = 0
      · subst hp0
        exact Or.inl (by omega)
      · have hb : s.predecessors.testBit (p - 1) = true := by
          rcases hp3 with h | h
          · omega
          · exact h
        have hple := hbits (p - 1) (by omega) hb
        exact Or.inr ⟨p - 1, by omega, hb, by omega⟩
    · rintro (hx | ⟨i, hi1, hi2, hi3⟩)
      · exact ⟨0, Nat.le_refl 0, by omega, Or.inl rfl, by omega⟩
      · exact ⟨i + 1, by omega, by omega, Or.inr (by simpa using hi2), by omega⟩

/-- C1: for every finite sequence S of sequence numbers whose maximum and
minimum differ by at most 31 (stated pairwise), calling AckSet::try_add
successively on each element of S starting from a freshly constructed
AckSet makes every call return true, and afterwards iterating the AckSet
from begin() to end() yields exactly the set of distinct elements of S in
strictly decreasing order. -/
theorem C1_ackset_window_fold (S : List Nat)
    (hSW : ∀ x ∈ S, x < W)
    (hwin : ∀ x ∈ S, ∀ y ∈ S, x ≤ y + 31) :
    (AckSet.init.add_all S).1 = true ∧
    ((AckSet.init.add_all S).2.toList).Pairwise (· > ·) ∧
    (∀ x, x ∈ (AckSet.init.add_all S).2.toList ↔ x ∈ S) := by
  cases S with
  | nil =>
      refine ⟨rfl, ?_, ?_⟩
      · exact List.Pairwise.nil
      · intro x
        simp [AckSet.add_all, AckSet.toList, AckSet.init]
  | cons a rest =>
      have hkey : AckSet.init.add_all (a :: rest) =
          AckSet.add_all ⟨a, a, 0, false⟩ rest := rfl
      rw [hkey]
      set s2 := (AckSet.add_all ⟨a, a, 0, false⟩ rest).2 with hs2
      have inv1 : InvP [a] ⟨a, a, 0, false⟩ := by
        dsimp only [InvP]
        refine ⟨rfl, List.mem_singleton_self a, List.mem_singleton_self a, ?_,
          by norm_num, ?_⟩
        · intro x hx
          simp only [List.mem_singleton] at hx
          omega
        · intro i hi
          simp only [Nat.zero_testBit, Bool.false_eq_true, false_iff]
          rintro ⟨x, hx, hxe⟩
          simp only [List.mem_singleton] at hx
          omega
      have hmemeq : ∀ z : Nat, z ∈ [a] ++ rest ↔ z ∈ a :: rest := by
        intro z
        simp
      have main := add_all_invP rest [a] ⟨a, a, 0, false⟩ inv1
        (fun x hx => hSW x ((hmemeq x).mp hx))
        (fun x hx y hy => hwin x ((hmemeq x).mp hx) y ((hmemeq y).mp hy))
      obtain ⟨m1, minv⟩ := main
      have hconsa : ([a] ++ rest) = a :: rest := rfl
      rw [hconsa, ← hs2] at minv
      obtain ⟨me, mhP, mlP, mmax, mpred, mbits⟩ := minv
      have hhW := hSW _ mhP
      have hfin := toList_spec s2 me hhW (by
        intro i hi hb
        obtain ⟨z, hz, hze⟩ := (mbits i hi).mp hb
        omega)
      obtain ⟨fpw, fmem⟩ := hfin
      refine ⟨m1, fpw, ?_⟩
      intro x
      rw [fmem x]
      constructor
      · rintro (hx | ⟨i, hi1, hi2, hi3⟩)
        · rw [hx]; exact mhP
        · obtain ⟨z, hz, hze⟩ := (mbits i hi1).mp hi2
          have hxz : x = z := by omega
          rw [hxz]; exact hz
      · intro hx
        by_cases hxh : x = s2.highest_sequence_number
        · exact Or.inl hxh
        · have hxle := mmax x hx
          have hback : s2.highest_sequence_number ≤ x + 31 := hwin _ mhP x hx
          exact Or.inr ⟨s2.highest_sequence_number - x - 1, by omega,
            (mbits _ (by omega)).mpr ⟨x, hx, by omega⟩, by omega⟩

/-- Witness for C1 at the concrete input S given by 5, 3, 6. -/
theorem C1_ackset_window_fold_witness :
    (∀ x ∈ [5, 3, 6], x < W) ∧ (∀ x ∈ [5, 3, 6], ∀ y ∈ [5, 3, 6], x ≤ y + 31) ∧
    ((AckSet.init.add_all [5, 3, 6]).1 = true ∧
      ((AckSet.init.add_all [5, 3, 6]).2.toList).Pairwise (· > ·) ∧
      (∀ x, x ∈ (AckSet.init.add_all [5, 3, 6]).2.toList ↔ x ∈ [5, 3, 6])) :=
  ⟨by decide, by decide, C1_ackset_window_fold [5, 3, 6] (by decide) (by decide)⟩

theorem try_add_false_unchanged (s : AckSet) (sn : Nat) :
    (s.try_add sn).1 = false → (s.try_add sn).2 = s := by
  simp only [AckSet.try_add]
  split_ifs <;> simp

/-- C6: for a non-empty AckSet with highest value h, try_add(sn) with
sn above h and sn - h > 31 (modular 32-bit difference) returns false; and on
every input for which try_add returns false the AckSet is left completely
unchanged. -/
theorem C6_try_add_refuses_far_advance (s : AckSet) (sn : Nat)
    (hh : s.highest_sequence_number < W) (hsn : sn < W) :
    (s.is_empty = false → sn_lt s.highest_sequence_number sn = true →
      31 < (sn + W - s.highest_sequence_number) % W → (s.try_add sn).1 = false) ∧
    ((s.try_add sn).1 = false → (s.try_add sn).2 = s) := by
  constructor
  · intro he hlt hfar
    have hne : ¬(sn = s.highest_sequence_number) := by
      intro hcon
      rw [hcon, sn_lt_self] at hlt
      exact Bool.false_ne_true hlt
    have hnlt : sn_lt sn s.highest_sequence_number = false := by
      simp only [sn_lt, decide_eq_true_eq, decide_eq_false_iff_not, W, HALF] at hlt hh hsn ⊢
      omega
    have hrej : sn_lt ((s.highest_sequence_number + 31) % W) sn = true := by
      simp only [sn_lt, decide_eq_true_eq, W, HALF] at hlt hfar hh hsn ⊢
      omega
    simp [AckSet.try_add, he, hne, hnlt, hrej]
  · exact try_add_false_unchanged s sn

/-- Witness for C6 at the state obtained by adding 0 then 31, with sn = 63. -/
theorem C6_try_add_refuses_far_advance_witness :
    (AckSet.init.add_all [0, 31]).2.highest_sequence_number < W ∧ (63 : Nat) < W ∧
    (((AckSet.init.add_all [0, 31]).2.is_empty = false →
      sn_lt (AckSet.init.add_all [0, 31]).2.highest_sequence_number 63 = true →
      31 < (63 + W - (AckSet.init.add_all [0, 31]).2.highest_sequence_number) % W →
      ((AckSet.init.add_all [0, 31]).2.try_add 63).1 = false) ∧
    (((AckSet.init.add_all [0, 31]).2.try_add 63).1 = false →
      ((AckSet.init.add_all [0, 31]).2.try_add 63).2 = (AckSet.init.add_all [0, 31]).2)) :=
  ⟨by decide, by decide,
    C6_try_add_refuses_far_advance (AckSet.init.add_all [0, 31]).2 63 (by decide) (by decide)⟩

theorem or31_idem (p c : Nat) :
    ((p ||| c) % 2 ^ 31 ||| c) % 2 ^ 31 = (p ||| c) % 2 ^ 31 := by
  apply Nat.eq_of_testBit_eq
  intro i
  simp only [Nat.testBit_mod_two_pow, Nat.testBit_or]
  by_cases hi : i < 31
  · simp only [hi, decide_True, Bool.true_and]
    cases p.testBit i <;> cases c.testBit i <;> rfl
  · simp only [hi, decide_False, Bool.false_and]

/-- C10: try_add is idempotent on success: if try_add(sn) returns true then
an immediately repeated try_add(sn) also returns true and leaves the whole
AckSet state unchanged. -/
theorem C10_try_add_idempotent (s : AckSet) (sn : Nat) (hsn : sn < W)
    (h1 : (s.try_add sn).1 = true) :
    (s.try_add sn).2.try_add sn = (true, (s.try_add sn).2) := by
  by_cases he : s.is_empty = true
  · have hfst : s.try_add sn =
        (true, { highest_sequence_number := sn, lowest_sequence_number := sn,
                 predecessors := 0, is_empty := false }) := by
      simp [AckSet.try_add, he]
    rw [hfst]
    exact try_add_eq_self _ rfl
  · have he' : s.is_empty = false := by
      cases hempty : s.is_empty
      · rfl
      · exact absurd hempty he
    by_cases heq : sn = s.highest_sequence_number
    · have hfst : s.try_add sn = (true, s) := by
        rw [heq]
        exact try_add_eq_self s he'
      rw [hfst]
      rw [heq]
      exact try_add_eq_self s he'
    · by_cases hblt : sn_lt sn s.highest_sequence_number = true
      · by_cases hfloor : sn_lt sn ((s.highest_sequence_number + W - 31) % W) = true
        · have hfst : s.try_add sn = (true, s) := by
            simp [AckSet.try_add, he', heq, hblt, hfloor]
          rw [hfst]
          simp [AckSet.try_add, he', heq, hblt, hfloor]
        · have hfloor' : sn_lt sn ((s.highest_sequence_number + W - 31) % W) = false :=
            Bool.not_eq_true _ ▸ (Bool.eq_false_iff.mpr hfloor)
          have hfst : s.try_add sn =
              (true, { s with predecessors :=
                (s.predecessors |||
                  (1 <<< ((s.highest_sequence_number + W - sn) % W - 1))) % 2 ^ 31 }) := by
            simp [AckSet.try_add, he', heq, hblt, hfloor']
          rw [hfst]
          have hsnd : AckSet.try_add
              { s with predecessors :=
                (s.predecessors |||
                  (1 <<< ((s.highest_sequence_number + W - sn) % W - 1))) % 2 ^ 31 } sn =
              (true, { s with predecessors :=
                ((s.predecessors |||
                    (1 <<< ((s.highest_sequence_number + W - sn) % W - 1))) % 2 ^ 31 |||
                  (1 <<< ((s.highest_sequence_number + W - sn) % W - 1))) % 2 ^ 31 }) := by
            simp [AckSet.try_add, he', heq, hblt, hfloor']
          rw [hsnd, or31_idem]
      · have hblt' : sn_lt sn s.highest_sequence_number = false :=
          Bool.not_eq_true _ ▸ (Bool.eq_false_iff.mpr hblt)
        by_cases hrej : sn_lt ((s.highest_sequence_number + 31) % W) sn = true
        · have hfst : (s.try_add sn).1 = false := by
            simp [AckSet.try_add, he', heq, hblt', hrej]
          rw [hfst] at h1
          exact absurd h1 (by simp)
        · have hrej' : sn_lt ((s.highest_sequence_number + 31) % W) sn = false :=
            Bool.not_eq_true _ ▸ (Bool.eq_false_iff.mpr hrej)
          by_cases hguard :
              s.advance_guard ((sn + W - s.highest_sequence_number) % W) = true
          · have hfst : s.try_add sn =
                (true, { s with
                  highest_sequence_number := sn,
                  predecessors :=
                    ((s.predecessors <<< ((sn + W - s.highest_sequence_number) % W)) % 2 ^ 31 |||
                      (1 <<< ((sn + W - s.highest_sequence_number) % W - 1))) % 2 ^ 31 }) := by
              simp [AckSet.try_add, he', heq, hblt', hrej', hguard]
            rw [hfst]
            exact try_add_eq_self _ he'
          · have hguard' :
                s.advance_guard ((sn + W - s.highest_sequence_number) % W) = false :=
              Bool.not_eq_true _ ▸ (Bool.eq_false_iff.mpr hguard)
            have hfst : (s.try_add sn).1 = false := by
              simp [AckSet.try_add, he', heq, hblt', hrej', hguard']
            rw [hfst] at h1
            exact absurd h1 (by simp)

/-- Witness for C10 at the state obtained by adding 40, with sn = 8. -/
theorem C10_try_add_idempotent_witness :
    (8 : Nat) < W ∧ ((AckSet.init.try_add 40).2.try_add 8).1 = true ∧
    ((AckSet.init.try_add 40).2.try_add 8).2.try_add 8 =
      (true, ((AckSet.init.try_add 40).2.try_add 8).2) :=
  ⟨by decide, by decide,
    C10_try_add_idempotent (AckSet.init.try_add 40).2 8 (by decide) (by decide)⟩

/-- C3 counterexample: after adding 0 and then 31 the AckSet is non-empty
with highest value 31; sn = 33 satisfies highest < sn ≤ highest + 31
(modular comparison, difference 2), yet try_add(33) returns false and leaves
the state unchanged, because the shift would discard the unset predecessor
bit 29 while the window is saturated. -/
theorem C3_counterexample :
    (AckSet.init.add_all [0, 31]).2.is_empty = false ∧
    (AckSet.init.add_all [0, 31]).2.highest_sequence_number = 31 ∧
    sn_lt (AckSet.init.add_all [0, 31]).2.highest_sequence_number 33 = true ∧
    (33 + W - (AckSet.init.add_all [0, 31]).2.highest_sequence_number) % W ≤ 31 ∧
    (AckSet.init.add_all [0, 31]).2.try_add 33 =
      (false, (AckSet.init.add_all [0, 31]).2) := by decide

/-- C3 (amended): for a non-empty AckSet with highest value h, try_add(sn)
with h < sn ≤ h + 31 (modular difference at most 31) succeeds and advances
highest to sn exactly when every bit position the shift would discard was
either set or lies below the initial window
(the guard of ack_set.h lines 115-119); when the guard fails because an
unset in-window predecessor bit would be discarded, try_add returns false
and leaves the AckSet unchanged. -/
theorem C3_try_add_advance_guarded (s : AckSet) (sn : Nat)
    (he : s.is_empty = false)
    (hh : s.highest_sequence_number < W) (hsn : sn < W)
    (hlt : sn_lt s.highest_sequence_number sn = true)
    (hd : (sn + W - s.highest_sequence_number) % W ≤ 31) :
    (s.advance_guard ((sn + W - s.highest_sequence_number) % W) = true →
      (s.try_add sn).1 = true ∧ (s.try_add sn).2.highest_sequence_number = sn) ∧
    (s.advance_guard ((sn + W - s.highest_sequence_number) % W) = false →
      s.try_add sn = (false, s)) := by
  have hne : ¬(sn = s.highest_sequence_number) := by
    intro hcon
    rw [hcon, sn_lt_self] at hlt
    exact Bool.false_ne_true hlt
  have hnlt : sn_lt sn s.highest_sequence_number = false := by
    simp only [sn_lt, decide_eq_true_eq, decide_eq_false_iff_not, W, HALF] at hlt hh hsn ⊢
    omega
  have hrej : sn_lt ((s.highest_sequence_number + 31) % W) sn = false := by
    simp only [sn_lt, decide_eq_true_eq, decide_eq_false_iff_not, W, HALF] at hlt hh hsn ⊢
    simp only [W] at hd
    omega
  have h0 : s.try_add sn =
      if s.advance_guard ((sn + W - s.highest_sequence_number) % W) then
        (true, { s with
          highest_sequence_number := sn,
          predecessors :=
            ((s.predecessors <<< ((sn + W - s.highest_sequence_number) % W)) % 2 ^ 31 |||
              (1 <<< ((sn + W - s.highest_sequence_number) % W - 1))) % 2 ^ 31 })
      else (false, s) := by
    simp [AckSet.try_add, he, hne, hnlt, hrej]
  constructor
  · intro hguard
    rw [h0, if_pos hguard]
    exact ⟨rfl, rfl⟩
  · intro hguard
    rw [h0, hguard]
    rfl

/-- Witness for the amended C3 at the state obtained by adding 0 then 31,
with sn = 32: the guard passes (the discarded bit 30 is set), so the add
succeeds and highest advances to 32. -/
theorem C3_try_add_advance_guarded_witness :
    ((AckSet.init.add_all [0, 31]).2.is_empty = false ∧
      (AckSet.init.add_all [0, 31]).2.highest_sequence_number < W ∧ (32 : Nat) < W ∧
      sn_lt (AckSet.init.add_all [0, 31]).2.highest_sequence_number 32 = true ∧
      (32 + W - (AckSet.init.add_all [0, 31]).2.highest_sequence_number) % W ≤ 31) ∧
    (((AckSet.init.add_all [0, 31]).2.advance_guard
        ((32 + W - (AckSet.init.add_all [0, 31]).2.highest_sequence_number) % W) = true →
      ((AckSet.init.add_all [0, 31]).2.try_add 32).1 = true ∧
      ((AckSet.init.add_all [0, 31]).2.try_add 32).2.highest_sequence_number = 32) ∧
    ((AckSet.init.add_all [0, 31]).2.advance_guard
        ((32 + W - (AckSet.init.add_all [0, 31]).2.highest_sequence_number) % W) = false →
      (AckSet.init.add_all [0, 31]).2.try_add 32 = (false, (AckSet.init.add_all [0, 31]).2))) :=
  ⟨⟨by decide, by decide, by decide, by decide, by decide⟩,
    C3_try_add_advance_guarded (AckSet.init.add_all [0, 31]).2 32
      (by decide) (by decide) (by decide) (by decide) (by decide)⟩

/-- C8: for a non-empty AckSet with highest value h, try_add(sn) with
sn ≤ h (modular) always returns true: when sn = h it is a no-op; when
h - sn > 31 it changes nothing; otherwise it sets predecessor bit
(h - sn - 1) and the set of represented sequence numbers afterwards is the
old set plus sn. -/
theorem C8_try_add_at_or_below (s : AckSet) (sn : Nat)
    (he : s.is_empty = false)
    (hh : s.highest_sequence_number < W) (hsn : sn < W)
    (hpred : s.predecessors < 2 ^ 31)
    (hle : sn = s.highest_sequence_number ∨ sn_lt sn s.highest_sequence_number = true) :
    (s.try_add sn).1 = true ∧
    (sn = s.highest_sequence_number → (s.try_add sn).2 = s) ∧
    (sn_lt sn s.highest_sequence_number = true →
      31 < (s.highest_sequence_number + W - sn) % W → (s.try_add sn).2 = s) ∧
    (sn_lt sn s.highest_sequence_number = true →
      (s.highest_sequence_number + W - sn) % W ≤ 31 →
      ((s.try_add sn).2.predecessors =
          (s.predecessors ||| 1 <<< ((s.highest_sequence_number + W - sn) % W - 1)) ∧
        (s.try_add sn).2.highest_sequence_number = s.highest_sequence_number ∧
        (s.try_add sn).2.lowest_sequence_number = s.lowest_sequence_number ∧
        (s.try_add sn).2.is_empty = s.is_empty ∧
        (∀ x, (s.try_add sn).2.represents x = true ↔
          (s.represents x = true ∨ x = sn)))) := by
  rcases hle with heq | hlt
  · have h0 : s.try_add sn = (true, s) := by
      rw [heq]
      exact try_add_eq_self s he
    refine ⟨by rw [h0], fun _ => by rw [h0], ?_, ?_⟩
    · intro hcon _
      rw [heq, sn_lt_self] at hcon
      exact absurd hcon (by simp)
    · intro hcon _
      rw [heq, sn_lt_self] at hcon
      exact absurd hcon (by simp)
  · have hne : ¬(sn = s.highest_sequence_number) := by
      intro hcon
      rw [hcon, sn_lt_self] at hlt
      exact Bool.false_ne_true hlt
    by_cases hfar : 31 < (s.highest_sequence_number + W - sn) % W
    · have hfloor : sn_lt sn ((s.highest_sequence_number + W - 31) % W) = true := by
        simp only [sn_lt, decide_eq_true_eq, W, HALF] at hlt hh hsn ⊢
        simp only [W] at hfar
        omega
      have h0 : s.try_add sn = (true, s) := by
        simp [AckSet.try_add, he, hne, hlt, hfloor]
      refine ⟨by rw [h0], fun _ => by rw [h0], fun _ _ => by rw [h0], ?_⟩
      intro _ hcon
      omega
    · have hd : (s.highest_sequence_number + W - sn) % W ≤ 31 := by omega
      have hfloor' : sn_lt sn ((s.highest_sequence_number + W - 31) % W) = false := by
        simp only [sn_lt, decide_eq_true_eq, decide_eq_false_iff_not, W, HALF]
          at hlt hh hsn ⊢
        simp only [W] at hd
        omega
      have hdge1 : 1 ≤ (s.highest_sequence_number + W - sn) % W := by
        simp only [sn_lt, decide_eq_true_eq, W, HALF] at hlt
        simp only [W] at hh hsn ⊢
        omega
      have h0 : s.try_add sn =
          (true, { s with predecessors :=
            (s.predecessors |||
              (1 <<< ((s.highest_sequence_number + W - sn) % W - 1))) % 2 ^ 31 }) := by
        simp [AckSet.try_add, he, hne, hlt, hfloor']
      have hexp : 1 <<< ((s.highest_sequence_number + W - sn) % W - 1) < 2 ^ 31 := by
        rw [Nat.one_shiftLeft]
        exact Nat.pow_lt_pow_right (by norm_num) (by omega)
      have hmod : (s.predecessors |||
          (1 <<< ((s.highest_sequence_number + W - sn) % W - 1))) % 2 ^ 31 =
          s.predecessors ||| (1 <<< ((s.highest_sequence_number + W - sn) % W - 1)) :=
        Nat.mod_eq_of_lt (Nat.or_lt_two_pow hpred hexp)
      have harith : (s.highest_sequence_number + W -
          ((s.highest_sequence_number + W - sn) % W - 1 + 1)) % W = sn := by
        simp only [W] at hh hsn ⊢
        omega
      rw [hmod] at h0
      refine ⟨by rw [h0], fun hcon => absurd hcon hne, fun _ hcon => absurd hd (by omega),
        fun _ _ => ?_⟩
      rw [h0]
      refine ⟨rfl, rfl, rfl, rfl, ?_⟩
      intro x
      simp only [AckSet.represents, he, Bool.not_false, Bool.true_and,
        Nat.testBit_or, Nat.one_shiftLeft, Nat.testBit_two_pow, Bool.or_eq_true,
        List.any_eq_true, List.mem_range, Bool.and_eq_true, beq_iff_eq,
        decide_eq_true_eq]
      constructor
      · rintro (hx | ⟨i, hi, (hbit | hdi), hxe⟩)
        · exact Or.inl (Or.inl hx)
        · exact Or.inl (Or.inr ⟨i, hi, hbit, hxe⟩)
        · refine Or.inr ?_
          rw [hxe, ← hdi, harith]
      · rintro ((hx | ⟨i, hi, hbit, hxe⟩) | hx)
        · exact Or.inl hx
        · exact Or.inr ⟨i, hi, Or.inl hbit, hxe⟩
        · exact Or.inr ⟨(s.highest_sequence_number + W - sn) % W - 1, by omega,
            Or.inr rfl, by rw [hx, harith]⟩

/-- Witness for C8 at the state obtained by adding 40, with sn = 8
(in-window predecessor, bit 31 - 8 - 1 = 30 gets set). -/
theorem C8_try_add_at_or_below_witness :
    ((AckSet.init.try_add 40).2.is_empty = false ∧
      (AckSet.init.try_add 40).2.highest_sequence_number < W ∧ (8 : Nat) < W ∧
      (AckSet.init.try_add 40).2.predecessors < 2 ^ 31 ∧
      sn_lt 8 (AckSet.init.try_add 40).2.highest_sequence_number = true) ∧
    ((AckSet.init.try_add 40).2.try_add 8).1 = true := by
  refine ⟨⟨by decide, by decide, by decide, by decide, by decide⟩, ?_⟩
  exact (C8_try_add_at_or_below (AckSet.init.try_add 40).2 8 (by decide) (by decide)
    (by decide) (by decide) (Or.inr (by decide))).1

/-- A transport message (transport/message.h, consumed by transmit_queue.h):
source UUID, set of target UUIDs still needing delivery, wire bytes and the
reliability class.  UUIDs are modelled as naturals; the target set, a
std::set, is modelled as a duplicate-free list. -/
structure Msg where
  source : Nat
  targets : List Nat
  bytes : List Nat
  reliable : Bool
deriving DecidableEq

/-- `Message::is_reliable`. -/
def Msg.is_reliable (m : Msg) : Bool := m.reliable

/-- One node of the `std::list<MessagePtr>` held by a TransmitQueue: a node
identity tag (modelling the list node / shared_ptr identity, used for
iterator comparison) together with the message it holds. -/
abbrev Entry : Type := Nat × Msg

/-- The state of `club::transport::TransmitQueue` (transmit_queue.h lines
73-83): the link's target set `_targets`, the message list `_messages` and
the rotating cursor `_next`.  The cursor is an index into the list; the
value `messages.length` encodes the end iterator. -/
structure TransmitQueue where
  targets : List Nat
  messages : List Entry
  next : Nat
deriving DecidableEq

/-- The `TransmitQueue` constructor (transmit_queue.h lines 88-92):
`_next = _messages.end()` on the empty list, i.e. index 0 = length. -/
def TransmitQueue.init : TransmitQueue :=
  { targets := [], messages := [], next := 0 }

/-- Insertion into the list before position `n` (std::list::insert). -/
def list_insert_at (l : List Entry) (n : Nat) (m : Entry) : List Entry :=
  l.take n ++ m :: l.drop n

/-- `TransmitQueue::insert_message` (transmit_queue.h lines 101-105):
insert before `_next`; if `_next` was the end iterator it becomes `begin()`.
In index terms, a cursor that pointed at an element is shifted one to the
right by the insertion before it. -/
def TransmitQueue.insert_message (q : TransmitQueue) (m : Entry) : TransmitQueue :=
  if q.next = q.messages.length then
    { q with messages := list_insert_at q.messages q.next m, next := 0 }
  else
    { q with messages := list_insert_at q.messages q.next m, next := q.next + 1 }

/-- `TransmitQueue::circular_increment` (transmit_queue.h lines 108-113). -/
def TransmitQueue.circular_increment (q : TransmitQueue) (i : Nat) : Nat :=
  if i + 1 = q.messages.length then 0 else i + 1

/-- `TransmitQueue::erase` (transmit_queue.h lines 116-132) for a valid
element index `i`: when the erased element is the cursor, the cursor moves
to the following element (wrapping from the end to `begin()`); otherwise the
cursor keeps pointing at its element, whose index shifts down by one if it
was behind the erased position.  The `_outbound_messages->release` call
notifies an external collaborator and has no effect on the queue state. -/
def TransmitQueue.erase (q : TransmitQueue) (i : Nat) : TransmitQueue :=
  let ms := q.messages.eraseIdx i
  if i = q.next then
    { q with messages := ms, next := if i = ms.length then 0 else i }
  else
    { q with messages := ms, next := if i < q.next then q.next - 1 else q.next }

/-- An item written into the encoder: a 16-byte UUID, a single byte, or a
run of raw bytes. -/
inductive Item where
  | uuid (u : Nat)
  | byte (b : Nat)
  | raw (bs : List Nat)
deriving DecidableEq

/-- The wire size of an item. -/
def Item.size : Item → Nat
  | .uuid _ => 16
  | .byte _ => 1
  | .raw bs => bs.length

/-- Modelled from the spec: `binary::encoder` (binary/encoder.h is not among
the sources).  Per the spec the encoder exposes a write cursor
(`_current.begin`), an error flag (`_was_error`), and put operations that on
overflow set the error flag without writing past the buffer.  The write
cursor is modelled as the list of items written so far; its byte offset is
the total size of that list.  A put once the error flag is set writes
nothing. -/
structure Encoder where
  capacity : Nat
  log : List Item
  was_error : Bool
deriving DecidableEq

/-- The current write offset of the encoder. -/
def Encoder.used (e : Encoder) : Nat := (e.log.map Item.size).sum

/-- `encoder.error()`. -/
def Encoder.error (e : Encoder) : Bool := e.was_error

/-- `encoder.set_error()`. -/
def Encoder.set_error (e : Encoder) : Encoder := { e with was_error := true }

/-- `encoder.put(...)`: append the item when it fits, otherwise set the
error flag; do nothing when the error flag is already set. -/
def Encoder.put (e : Encoder) (it : Item) : Encoder :=
  if e.was_error then e
  else if e.used + it.size ≤ e.capacity then { e with log := e.log ++ [it] }
  else { e with was_error := true }

/-- `TransmitQueue::set_intersection` (transmit_queue.h lines 238-247):
std::set_intersection of two sorted duplicate-free ranges, which for such
ranges is the order-preserving filter of the first by membership in the
second. -/
def set_intersection (s1 s2 : List Nat) : List Nat :=
  s1.filter (fun x => s2.contains x)

/-- `TransmitQueue::encode_targets` (transmit_queue.h lines 221-235): a
target count above 255 sets the encoder error (the code asserts first);
otherwise one count byte followed by the target UUIDs. -/
def encode_targets (e : Encoder) (targets : List Nat) : Encoder :=
  if 255 < targets.length then e.set_error
  else targets.foldl (fun acc id => acc.put (Item.uuid id)) (e.put (Item.byte targets.length))

/-- `TransmitQueue::encode` (transmit_queue.h lines 210-218): source UUID,
target list, raw message bytes. -/
def encode (e : Encoder) (targets : List Nat) (m : Msg) : Encoder :=
  (encode_targets (e.put (Item.uuid m.source)) targets).put (Item.raw m.bytes)

/-- `TransmitQueue::try_encode` (transmit_queue.h lines 190-207): record the
write cursor and error flag, encode, and on error restore both and report
failure. -/
def try_encode (e : Encoder) (targets : List Nat) (m : Msg) : Bool × Encoder :=
  let e2 := encode e targets m
  if e2.error then (false, { e2 with log := e.log, was_error := e.was_error })
  else (true, e2)

/-- The result of `encode_few`: the queue and encoder states, the returned
count, and (specification instrumentation) the list of node identity tags
of the messages successfully encoded, in encoding order. -/
structure FewResult where
  queue : TransmitQueue
  encoder : Encoder
  count : Nat
  encoded : List Nat
deriving DecidableEq

/-- The loop of `TransmitQueue::encode_few` (transmit_queue.h lines
147-184).  `last_id` is the node tag of the element chosen as the loop
terminator; iterator equality `current == last` is node identity, modelled
by comparing tags.  The fuel bounds the iteration count; the chosen fuel in
`encode_few` is large enough that it never runs out, since every iteration
either erases a list node or (on a successful encode) grows the encoder
log, and the loop exits when the encoder overflows. -/
def encode_few_loop (last_id : Nat) :
    Nat → TransmitQueue → Encoder → Nat → List Nat → FewResult
  | 0, q, e, count, enc => ⟨q, e, count, enc⟩
  | fuel + 1, q, e, count, enc =>
    match q.messages[q.next]? with
    | none => ⟨q, e, count, enc⟩
    | some (cid, m) =>
      let current := q.next
      let q1 : TransmitQueue := { q with next := q.circular_increment q.next }
      let is_last := cid == last_id
      let inter := set_intersection m.targets q1.targets
      if inter.isEmpty then
        let q2 := q1.erase current
        if q2.messages.isEmpty then ⟨q2, e, count, enc⟩
        else encode_few_loop last_id fuel q2 e count enc
      else
        let te := try_encode e inter m
        if te.1 then
          let count2 := (count + 1) % 65536
          let enc2 := enc ++ [cid]
          if m.is_reliable then
            if is_last then ⟨q1, te.2, count2, enc2⟩
            else encode_few_loop last_id fuel q1 te.2 count2 enc2
          else
            let m2 : Msg :=
              { m with targets := m.targets.filter (fun t => !(q1.targets.contains t)) }
            let q2 : TransmitQueue :=
              { q1 with messages := q1.messages.set current (cid, m2) }
            if m2.targets.isEmpty then
              let q3 := q2.erase current
              if q3.messages.isEmpty then ⟨q3, te.2, count2, enc2⟩
              else if is_last then ⟨q3, te.2, count2, enc2⟩
              else encode_few_loop last_id fuel q3 te.2 count2 enc2
            else
              if is_last then ⟨q2, te.2, count2, enc2⟩
              else encode_few_loop last_id fuel q2 te.2 count2 enc2
        else ⟨{ q1 with next := current }, te.2, count, enc⟩

/-- `TransmitQueue::encode_few` (transmit_queue.h lines 135-187): nothing
to do on an empty queue; otherwise remember the circular predecessor of the
cursor as the loop terminator and run the loop.  The returned count is the
`uint16_t` counter. -/
def TransmitQueue.encode_few (q : TransmitQueue) (e : Encoder) : FewResult :=
  if q.messages.isEmpty then ⟨q, e, 0, []⟩
  else
    let lastIdx := if q.next = 0 then q.messages.length - 1 else q.next - 1
    let last_id := match q.messages[lastIdx]? with
      | some en => en.1
      | none => 0
    encode_few_loop last_id (q.messages.length + e.capacity + 1) q e 0 []

/-- A sequence of encode_few calls on one queue, one per encoder in the
list, collecting each call's list of encoded node tags. -/
def run_queue (q : TransmitQueue) : List Encoder → TransmitQueue × List (List Nat)
  | [] => (q, [])
  | e :: es =>
      let r := q.encode_few e
      let rest := run_queue r.queue es
      (rest.1, r.encoded :: rest.2)

/-- C2 is violated by the code: with a link whose target set is {5}, a
queue holding a reliable message (node tag 1, target {5}) followed by a
message with no targets on this link (node tag 2, target {9}), the cursor
on the first message, and an encoder with room for two records, one call to
encode_few encodes message 1 twice (the loop terminator, message 2, is
erased through the empty-intersection branch whose continue skips the
is_last check, so the loop wraps around).  The count returned is 2 and the
encoded list is [1, 1]. -/
theorem C2_counterexample_eval :
    (TransmitQueue.encode_few
        ⟨[5], [(1, ⟨10, [5], [], true⟩), (2, ⟨11, [9], [], false⟩)], 0⟩
        ⟨66, [], false⟩).encoded = [1, 1] ∧
    1 < ((TransmitQueue.encode_few
        ⟨[5], [(1, ⟨10, [5], [], true⟩), (2, ⟨11, [9], [], false⟩)], 0⟩
        ⟨66, [], false⟩).encoded).count 1 := by decide

/-- The TransmitQueue invariant (transmit_queue.h line 77): the message
list is empty iff the cursor is the end sentinel; the second conjunct
states that the cursor is a valid position, which is implicit in the C++
iterator type. -/
def TransmitQueue.inv (q : TransmitQueue) : Prop :=
  (q.messages = [] ↔ q.next = q.messages.length) ∧ q.next ≤ q.messages.length

theorem inv_of_lt (q : TransmitQueue) (h : q.next < q.messages.length) : q.inv := by
  constructor
  · constructor
    · intro hnil
      rw [hnil] at h
      simp at h
    · intro hcon
      omega
  · omega

theorem lt_of_inv (q : TransmitQueue) (h : q.inv) (hne : q.messages ≠ []) :
    q.next < q.messages.length := by
  rcases h with ⟨hiff, hle⟩
  have : q.next ≠ q.messages.length := fun hcon => hne (hiff.mpr hcon)
  omega

theorem length_list_insert_at (l : List Entry) (n : Nat) (m : Entry) (h : n ≤ l.length) :
    (list_insert_at l n m).length = l.length + 1 := by
  simp [list_insert_at]
  omega

theorem list_insert_at_ne_nil (l : List Entry) (n : Nat) (m : Entry) :
    list_insert_at l n m ≠ [] := by
  simp [list_insert_at]

theorem inv_insert_message (q : TransmitQueue) (m : Entry) (h : q.inv) :
    (q.insert_message m).inv := by
  obtain ⟨hiff, hle⟩ := h
  unfold TransmitQueue.insert_message
  by_cases hend : q.next = q.messages.length
  · rw [if_pos hend]
    dsimp only [TransmitQueue.inv]
    have hlen := length_list_insert_at q.messages q.next m (Nat.le_of_eq hend)
    have hne := list_insert_at_ne_nil q.messages q.next m
    exact ⟨⟨fun hcon => absurd hcon hne, fun hcon => absurd hcon (by omega)⟩, Nat.zero_le _⟩
  · rw [if_neg hend]
    dsimp only [TransmitQueue.inv]
    have hlt : q.next < q.messages.length := Nat.lt_of_le_of_ne hle hend
    have hlen := length_list_insert_at q.messages q.next m (Nat.le_of_lt hlt)
    have hne := list_insert_at_ne_nil q.messages q.next m
    exact ⟨⟨fun hcon => absurd hcon hne, fun hcon => absurd hcon (by omega)⟩, by omega⟩

theorem inv_erase (q : TransmitQueue) (i : Nat) (h : q.inv) (hi : i < q.messages.length) :
    (q.erase i).inv := by
  have hnonnil : q.messages ≠ [] := by
    intro hcon
    rw [hcon] at hi
    simp at hi
  have hnext : q.next < q.messages.length := lt_of_inv q h hnonnil
  have hlen : (q.messages.eraseIdx i).length = q.messages.length - 1 :=
    List.length_eraseIdx_of_lt hi
  simp only [TransmitQueue.erase]
  by_cases hin : i = q.next
  · rw [if_pos hin]
    by_cases hend : i = (q.messages.eraseIdx i).length
    · rw [if_pos hend]
      dsimp only [TransmitQueue.inv]
      refine ⟨⟨fun hnil => ?_, fun h0 => ?_⟩, Nat.zero_le _⟩
      · rw [hnil]
        rfl
      · have : (q.messages.eraseIdx i).length = 0 := h0.symm
        exact List.length_eq_zero.mp this
    · rw [if_neg hend]
      dsimp only [TransmitQueue.inv]
      have hmsne : q.messages.eraseIdx i ≠ [] := by
        intro hcon
        have : (q.messages.eraseIdx i).length = 0 := by rw [hcon]; rfl
        omega
      exact ⟨⟨fun hcon => absurd hcon hmsne, fun hcon => absurd hcon hend⟩, by omega⟩
  · rw [if_neg hin]
    have hmsne : q.messages.eraseIdx i ≠ [] := by
      intro hcon
      have : (q.messages.eraseIdx i).length = 0 := by rw [hcon]; rfl
      omega
    by_cases hlt2 : i < q.next
    · rw [if_pos hlt2]
      dsimp only [TransmitQueue.inv]
      exact ⟨⟨fun hcon => absurd hcon hmsne, fun hcon => absurd hcon (by omega)⟩, by omega⟩
    · rw [if_neg hlt2]
      dsimp only [TransmitQueue.inv]
      exact ⟨⟨fun hcon => absurd hcon hmsne, fun hcon => absurd hcon (by omega)⟩, by omega⟩

theorem circular_increment_lt (q : TransmitQueue) (i : Nat) (hi : i < q.messages.length) :
    q.circular_increment i < q.messages.length := by
  unfold TransmitQueue.circular_increment
  split <;> omega

theorem encode_few_loop_inv (lid : Nat) :
    ∀ fuel q e count enc, q.inv →
      (encode_few_loop lid fuel q e count enc).queue.inv := by
  intro fuel
  induction fuel with
  | zero =>
      intro q e c enc h
      exact h
  | succ n ih =>
      intro q e c enc h
      rcases hcur : q.messages[q.next]? with _ | ⟨cid, m⟩
      · simp only [encode_few_loop, hcur]
        exact h
      · have hlt : q.next < q.messages.length := by
          by_contra hcon
          rw [List.getElem?_eq_none (by omega)] at hcur
          cases hcur
        have hq1inv : ({ q with next := q.circular_increment q.next } : TransmitQueue).inv :=
          inv_of_lt _ (circular_increment_lt q q.next hlt)
        have herase_inv :
            (TransmitQueue.erase { q with next := q.circular_increment q.next } q.next).inv :=
          inv_erase _ _ hq1inv hlt
        have hfail_inv : ({ q with next := q.next } : TransmitQueue).inv :=
          inv_of_lt _ hlt
        have hq2u_inv : ∀ m2 : Msg,
            ({ q with
                next := q.circular_increment q.next,
                messages := q.messages.set q.next (cid, m2) } : TransmitQueue).inv := by
          intro m2
          apply inv_of_lt
          dsimp only
          rw [List.length_set]
          exact circular_increment_lt q q.next hlt
        have hq3u_inv : ∀ m2 : Msg,
            (TransmitQueue.erase
              { q with
                next := q.circular_increment q.next,
                messages := q.messages.set q.next (cid, m2) } q.next).inv := by
          intro m2
          apply inv_erase _ _ (hq2u_inv m2)
          dsimp only
          rw [List.length_set]
          exact hlt
        simp only [encode_few_loop, hcur]
        split_ifs <;>
          first
            | exact hq1inv
            | exact herase_inv
            | exact hfail_inv
            | exact hq2u_inv _
            | exact hq3u_inv _
            | exact ih _ _ _ _ herase_inv
            | exact ih _ _ _ _ hq1inv
            | exact ih _ _ _ _ (hq2u_inv _)
            | exact ih _ _ _ _ (hq3u_inv _)

theorem encode_few_inv (q : TransmitQueue) (e : Encoder) (h : q.inv) :
    (q.encode_few e).queue.inv := by
  unfold TransmitQueue.encode_few
  by_cases hemp : q.messages.isEmpty
  · rw [if_pos hemp]
    exact h
  · rw [if_neg hemp]
    exact encode_few_loop_inv _ _ q e 0 [] h

/-- C5: the TransmitQueue invariant, that the message list is empty iff
the cursor _next equals the sentinel end position, holds after construction
and is preserved by insert_message, by erase at any valid index, and by
encode_few. -/
theorem C5_queue_invariant_preserved :
    TransmitQueue.init.inv ∧
    (∀ (q : TransmitQueue) (m : Entry), q.inv → (q.insert_message m).inv) ∧
    (∀ (q : TransmitQueue) (i : Nat), q.inv → i < q.messages.length → (q.erase i).inv) ∧
    (∀ (q : TransmitQueue) (e : Encoder), q.inv → (q.encode_few e).queue.inv) :=
  ⟨⟨⟨fun _ => rfl, fun _ => rfl⟩, Nat.le_refl 0⟩, inv_insert_message, inv_erase,
    encode_few_inv⟩

/-- Witness for C5 at concrete queues. -/
theorem C5_queue_invariant_preserved_witness :
    (TransmitQueue.init.insert_message (1, ⟨10, [5], [], true⟩)).inv ∧
    ((⟨[5], [(1, ⟨10, [5], [], true⟩), (2, ⟨11, [9], [], false⟩)], 1⟩ :
        TransmitQueue).erase 0).inv ∧
    ((⟨[5], [(1, ⟨10, [5], [], true⟩), (2, ⟨11, [9], [], false⟩)], 0⟩ :
        TransmitQueue).encode_few ⟨66, [], false⟩).queue.inv :=
  ⟨C5_queue_invariant_preserved.2.1 TransmitQueue.init (1, ⟨10, [5], [], true⟩)
      C5_queue_invariant_preserved.1,
    C5_queue_invariant_preserved.2.2.1 _ 0 (by constructor <;> simp) (by decide),
    C5_queue_invariant_preserved.2.2.2 _ ⟨66, [], false⟩ (by constructor <;> simp)⟩

theorem put_capacity (e : Encoder) (it : Item) : (e.put it).capacity = e.capacity := by
  unfold Encoder.put
  split_ifs <;> rfl

theorem foldl_put_capacity :
    ∀ (ts : List Nat) (e : Encoder),
      (ts.foldl (fun acc id => acc.put (Item.uuid id)) e).capacity = e.capacity := by
  intro ts
  induction ts with
  | nil => intro e; rfl
  | cons t ts ih =>
      intro e
      rw [List.foldl_cons, ih, put_capacity]

theorem encode_targets_capacity (e : Encoder) (ts : List Nat) :
    (encode_targets e ts).capacity = e.capacity := by
  unfold encode_targets
  split_ifs
  · rfl
  · rw [foldl_put_capacity, put_capacity]

theorem encode_capacity (e : Encoder) (ts : List Nat) (m : Msg) :
    (encode e ts m).capacity = e.capacity := by
  unfold encode
  rw [put_capacity, encode_targets_capacity, put_capacity]

theorem try_encode_false_restores (e : Encoder) (ts : List Nat) (m : Msg) :
    (try_encode e ts m).1 = false → (try_encode e ts m).2 = e := by
  simp only [try_encode]
  split_ifs with herr
  · intro _
    have hcap := encode_capacity e ts m
    obtain ⟨cap, log, err⟩ := e
    simp only [Encoder.mk.injEq]
    exact ⟨hcap, trivial, trivial⟩
  · intro hcon
    exact absurd hcon (by simp)

/-- C7: try_encode is transactional: when the encoder reports insufficient
space it returns false and the encoder's write cursor and error flag (and
hence its whole state, the capacity never changing) are restored exactly;
the encode_few loop then sets the cursor back to the failed message and
stops, leaving queue, count and encoded list as they were, so the next call
retries that message first. -/
theorem C7_try_encode_transactional :
    (∀ e ts m, (try_encode e ts m).1 = false → (try_encode e ts m).2 = e) ∧
    (∀ lid fuel q e count enc cid m,
      q.messages[q.next]? = some (cid, m) →
      (set_intersection m.targets q.targets).isEmpty = false →
      (try_encode e (set_intersection m.targets q.targets) m).1 = false →
      encode_few_loop lid (fuel + 1) q e count enc = ⟨q, e, count, enc⟩) := by
  refine ⟨try_encode_false_restores, ?_⟩
  intro lid fuel q e count enc cid m hcur hne hfail
  have hrest := try_encode_false_restores e (set_intersection m.targets q.targets) m hfail
  simp only [encode_few_loop, hcur, hne, Bool.false_eq_true, if_false, hfail, hrest]

/-- Witness for C7: a queue with one reliable message and an encoder whose
capacity cannot hold even the source UUID, so the encode attempt fails and
everything is restored. -/
theorem C7_try_encode_transactional_witness :
    ((⟨[5], [(1, ⟨10, [5], [], true⟩)], 0⟩ :
        TransmitQueue).messages[(0 : Nat)]? = some (1, ⟨10, [5], [], true⟩) ∧
      (set_intersection [5] [5]).isEmpty = false ∧
      (try_encode ⟨10, [], false⟩ (set_intersection [5] [5]) ⟨10, [5], [], true⟩).1 = false) ∧
    encode_few_loop 1 3 ⟨[5], [(1, ⟨10, [5], [], true⟩)], 0⟩ ⟨10, [], false⟩ 0 [] =
      ⟨⟨[5], [(1, ⟨10, [5], [], true⟩)], 0⟩, ⟨10, [], false⟩, 0, []⟩ :=
  ⟨⟨by decide, by decide, by decide⟩,
    C7_try_encode_transactional.2 1 2 ⟨[5], [(1, ⟨10, [5], [], true⟩)], 0⟩
      ⟨10, [], false⟩ 0 [] 1 ⟨10, [5], [], true⟩ (by decide) (by decide) (by decide)⟩

theorem nodup_subset_length_le {l1 l2 : List Nat} (h1 : l1.Nodup)
    (hsub : ∀ x ∈ l1, x ∈ l2) : l1.length ≤ l2.length := by
  have h3 : l1.toFinset ⊆ l2.toFinset := by
    intro x hx
    rw [List.mem_toFinset] at hx ⊢
    exact hsub x hx
  calc l1.length = l1.toFinset.card := (List.toFinset_card_of_nodup h1).symm
    _ ≤ l2.toFinset.card := Finset.card_le_card h3
    _ ≤ l2.length := List.toFinset_card_le l2

theorem set_intersection_length_le (s1 s2 : List Nat) (h : s1.Nodup) :
    (set_intersection s1 s2).length ≤ s2.length := by
  apply nodup_subset_length_le (h.filter _)
  intro x hx
  simp only [set_intersection, List.mem_filter] at hx
  simpa using hx.2

theorem put_byte_mem (e : Encoder) (it : Item) (n : Nat)
    (h : Item.byte n ∈ (e.put it).log) : Item.byte n ∈ e.log ∨ Item.byte n = it := by
  unfold Encoder.put at h
  split_ifs at h
  · exact Or.inl h
  · rw [List.mem_append] at h
    rcases h with h | h
    · exact Or.inl h
    · exact Or.inr (List.mem_singleton.mp h)
  · exact Or.inl h

theorem foldl_uuid_byte_mem :
    ∀ (ts : List Nat) (e : Encoder) (n : Nat),
      Item.byte n ∈ (ts.foldl (fun acc id => acc.put (Item.uuid id)) e).log →
      Item.byte n ∈ e.log := by
  intro ts
  induction ts with
  | nil => intro e n h; exact h
  | cons t ts ih =>
      intro e n h
      rw [List.foldl_cons] at h
      rcases put_byte_mem e (Item.uuid t) n (ih _ n h) with h2 | h2
      · exact h2
      · simp at h2

theorem encode_targets_byte_mem (e : Encoder) (ts : List Nat) (n : Nat)
    (h : Item.byte n ∈ (encode_targets e ts).log) :
    Item.byte n ∈ e.log ∨ n = ts.length := by
  unfold encode_targets at h
  split_ifs at h with hgt
  · exact Or.inl h
  · rcases put_byte_mem e (Item.byte ts.length) n (foldl_uuid_byte_mem ts _ n h) with h3 | h3
    · exact Or.inl h3
    · right
      simpa using h3

theorem encode_byte_mem (e : Encoder) (ts : List Nat) (m : Msg) (n : Nat)
    (h : Item.byte n ∈ (encode e ts m).log) :
    Item.byte n ∈ e.log ∨ n = ts.length := by
  unfold encode at h
  rcases put_byte_mem _ (Item.raw m.bytes) n h with h2 | h2
  · rcases encode_targets_byte_mem _ ts n h2 with h3 | h3
    · rcases put_byte_mem e (Item.uuid m.source) n h3 with h4 | h4
      · exact Or.inl h4
      · simp at h4
    · exact Or.inr h3
  · simp at h2

theorem try_encode_byte_mem (e : Encoder) (ts : List Nat) (m : Msg) (n : Nat)
    (h : Item.byte n ∈ (try_encode e ts m).2.log) :
    Item.byte n ∈ e.log ∨ n = ts.length := by
  simp only [try_encode] at h
  split_ifs at h
  · exact Or.inl h
  · exact encode_byte_mem e ts m n h

theorem erase_targets_eq (q : TransmitQueue) (i : Nat) :
    (q.erase i).targets = q.targets := by
  simp only [TransmitQueue.erase]
  split_ifs <;> rfl

theorem mem_erase_messages (q : TransmitQueue) (i : Nat) (en : Entry)
    (h : en ∈ (q.erase i).messages) : en ∈ q.messages := by
  simp only [TransmitQueue.erase] at h
  split_ifs at h <;> exact List.mem_of_mem_eraseIdx h

theorem encode_few_loop_byte_bounds (lid : Nat) :
    ∀ fuel (q : TransmitQueue) (e : Encoder) count enc,
      (∀ en ∈ q.messages, (en : Entry).2.targets.Nodup) →
      q.targets.length ≤ 255 →
      ∀ n, Item.byte n ∈ (encode_few_loop lid fuel q e count enc).encoder.log →
        Item.byte n ∈ e.log ∨ (1 ≤ n ∧ n ≤ 255) := by
  intro fuel
  induction fuel with
  | zero =>
      intro q e c enc _ _ n h
      exact Or.inl h
  | succ k ih =>
      intro q e c enc hnd ht n h
      rcases hcur : q.messages[q.next]? with _ | ⟨cid, m⟩
      · simp only [encode_few_loop, hcur] at h
        exact Or.inl h
      · have hmem : (cid, m) ∈ q.messages := List.getElem?_mem hcur
        have hmnd : m.targets.Nodup := hnd _ hmem
        have hgoodf : (set_intersection m.targets q.targets).isEmpty = false →
            ∀ nn, nn = (set_intersection m.targets q.targets).length →
              1 ≤ nn ∧ nn ≤ 255 := by
          intro hne nn hnn
          have hle := set_intersection_length_le m.targets q.targets hmnd
          have hge : set_intersection m.targets q.targets ≠ [] := by simpa using hne
          have hpos : 0 < (set_intersection m.targets q.targets).length :=
            List.length_pos.mpr hge
          omega
        have hnd_q1 : ∀ en ∈ ({ q with next := q.circular_increment q.next } :
            TransmitQueue).messages, (en : Entry).2.targets.Nodup := hnd
        have hnd_qe : ∀ en ∈ (TransmitQueue.erase
            { q with next := q.circular_increment q.next } q.next).messages,
            (en : Entry).2.targets.Nodup :=
          fun en hen => hnd en (mem_erase_messages
            { q with next := q.circular_increment q.next } q.next en hen)
        have ht_qe : (TransmitQueue.erase
            { q with next := q.circular_increment q.next } q.next).targets.length ≤ 255 := by
          rw [erase_targets_eq]
          exact ht
        have hnd_qs : ∀ en ∈ ({ q with
            next := q.circular_increment q.next,
            messages := q.messages.set q.next
              (cid, { m with targets :=
                m.targets.filter (fun t => !(q.targets.contains t)) }) } :
            TransmitQueue).messages, (en : Entry).2.targets.Nodup := by
          intro en hen
          rcases List.mem_or_eq_of_mem_set hen with hz | hz
          · exact hnd en hz
          · rw [hz]
            exact hmnd.filter _
        have hnd_qse : ∀ en ∈ (TransmitQueue.erase { q with
            next := q.circular_increment q.next,
            messages := q.messages.set q.next
              (cid, { m with targets :=
                m.targets.filter (fun t => !(q.targets.contains t)) }) }
            q.next).messages, (en : Entry).2.targets.Nodup :=
          fun en hen => hnd_qs en (mem_erase_messages
            { q with
              next := q.circular_increment q.next,
              messages := q.messages.set q.next
                (cid, { m with targets :=
                  m.targets.filter (fun t => !(q.targets.contains t)) }) }
            q.next en hen)
        have ht_qse : (TransmitQueue.erase { q with
            next := q.circular_increment q.next,
            messages := q.messages.set q.next
              (cid, { m with targets :=
                m.targets.filter (fun t => !(q.targets.contains t)) }) }
            q.next).targets.length ≤ 255 := by
          rw [erase_targets_eq]
          exact ht
        simp only [encode_few_loop, hcur] at h
        split_ifs at h with h1 h2 h3 h4 h5 h6 h7 h8 h9
        all_goals
          first
            | exact Or.inl h
            | exact (try_encode_byte_mem _ _ _ _ h).elim Or.inl
                (fun hb => Or.inr (hgoodf (by simpa using h1) _ hb))
            | exact (ih _ _ _ _ hnd_qe ht_qe n h).elim Or.inl Or.inr
            | exact (ih _ _ _ _ hnd_q1 ht n h).elim
                (fun hb => (try_encode_byte_mem _ _ _ _ hb).elim Or.inl
                  (fun hb2 => Or.inr (hgoodf (by simpa using h1) _ hb2)))
                Or.inr
            | exact (ih _ _ _ _ hnd_qs ht n h).elim
                (fun hb => (try_encode_byte_mem _ _ _ _ hb).elim Or.inl
                  (fun hb2 => Or.inr (hgoodf (by simpa using h1) _ hb2)))
                Or.inr
            | exact (ih _ _ _ _ hnd_qse ht_qse n h).elim
                (fun hb => (try_encode_byte_mem _ _ _ _ hb).elim Or.inl
                  (fun hb2 => Or.inr (hgoodf (by simpa using h1) _ hb2)))
                Or.inr

/-- C9: assuming the link's target set holds at most 255 peers (with the
std::set guarantee that target lists are duplicate-free), every target-count
byte written into the encoder by encode_few is between 1 and 255: a message
whose target intersection with the link is empty is erased without being
encoded, so a zero count is never written, and encode_targets sets the
encoder error flag instead of writing a count above 255. -/
theorem C9_target_count_in_range :
    (∀ (e : Encoder) (ts : List Nat), 255 < ts.length →
      encode_targets e ts = e.set_error) ∧
    (∀ (q : TransmitQueue) (e : Encoder),
      (∀ en ∈ q.messages, (en : Entry).2.targets.Nodup) →
      q.targets.length ≤ 255 →
      ∀ n, Item.byte n ∈ (q.encode_few e).encoder.log →
        Item.byte n ∈ e.log ∨ (1 ≤ n ∧ n ≤ 255)) := by
  constructor
  · intro e ts h
    simp [encode_targets, h]
  · intro q e hnd ht n h
    unfold TransmitQueue.encode_few at h
    by_cases hemp : q.messages.isEmpty = true
    · rw [if_pos hemp] at h
      exact Or.inl h
    · rw [if_neg hemp] at h
      exact encode_few_loop_byte_bounds _ _ q e 0 [] hnd ht n h

/-- Witness for C9: a 256-element target list is rejected through the error
flag, and on the concrete two-message queue every count byte that
encode_few writes is in range. -/
theorem C9_target_count_in_range_witness :
    (255 < (List.range 256).length ∧
      encode_targets ⟨66, [], false⟩ (List.range 256) =
        Encoder.set_error ⟨66, [], false⟩) ∧
    ((∀ en ∈ ([(1, ⟨10, [5], [], true⟩), (2, ⟨11, [9], [], false⟩)] : List Entry),
        en.2.targets.Nodup) ∧ ([5] : List Nat).length ≤ 255) ∧
    (Item.byte 1 ∈ ((⟨[5], [(1, ⟨10, [5], [], true⟩), (2, ⟨11, [9], [], false⟩)], 0⟩ :
        TransmitQueue).encode_few ⟨66, [], false⟩).encoder.log →
      Item.byte 1 ∈ ([] : List Item) ∨ (1 ≤ 1 ∧ 1 ≤ 255)) :=
  ⟨⟨by norm_num [List.length_range],
      C9_target_count_in_range.1 ⟨66, [], false⟩ (List.range 256)
        (by norm_num [List.length_range])⟩,
   ⟨by decide, by decide⟩,
   fun h => C9_target_count_in_range.2 _ ⟨66, [], false⟩ (by decide) (by decide) 1 h⟩

/-- No entry of the queue with node tag `mid` still has targets on this
link: the message is dead for the link, so it can never be encoded again. -/
def dead_on (mid : Nat) (q : TransmitQueue) : Prop :=
  ∀ en ∈ q.messages, (en : Entry).1 = mid →
    set_intersection en.2.targets q.targets = []

/-- Every entry of the queue with node tag `mid` is unreliable. -/
def unrel_on (mid : Nat) (q : TransmitQueue) : Prop :=
  ∀ en ∈ q.messages, (en : Entry).1 = mid → en.2.reliable = false

theorem erase_messages_eq (q : TransmitQueue) (i : Nat) :
    (q.erase i).messages = q.messages.eraseIdx i := by
  simp only [TransmitQueue.erase]
  split_ifs <;> rfl

theorem map_fst_set_same (l : List Entry) (i : Nat) (cid : Nat) (m m2 : Msg)
    (h : l[i]? = some (cid, m)) :
    (l.set i (cid, m2)).map Prod.fst = l.map Prod.fst := by
  apply List.ext_getElem?
  intro n
  by_cases hn : n = i
  · subst hn
    obtain ⟨hlt, -⟩ := List.getElem?_eq_some_iff.mp h
    rw [List.getElem?_map, List.getElem?_map,
      List.getElem?_set_self (by simpa using hlt), h]
    rfl
  · rw [List.getElem?_map, List.getElem?_map, List.getElem?_set_ne (fun hcon => hn hcon.symm)]

theorem not_fst_mem_eraseIdx (l : List Entry) (i : Nat) (cid : Nat) (m : Msg)
    (h : l[i]? = some (cid, m)) (hnd : (l.map Prod.fst).Nodup) :
    ∀ en ∈ l.eraseIdx i, (en : Entry).1 ≠ cid := by
  intro en hen hfst
  obtain ⟨j, hj, hje⟩ := List.getElem_of_mem hen
  have hj2 : (l.eraseIdx i)[j]? = some en := by
    rw [List.getElem?_eq_getElem hj, hje]
  rw [List.getElem?_eraseIdx] at hj2
  have hne : ∃ j2, j2 ≠ i ∧ l[j2]? = some en := by
    by_cases hlt : j < i
    · rw [if_pos hlt] at hj2
      exact ⟨j, by omega, hj2⟩
    · rw [if_neg hlt] at hj2
      exact ⟨j + 1, by omega, hj2⟩
  obtain ⟨j2, hj2ne, hj2e⟩ := hne
  have hm1 : (l.map Prod.fst)[j2]? = some cid := by
    rw [List.getElem?_map, hj2e]
    simpa using hfst
  have hm2 : (l.map Prod.fst)[i]? = some cid := by
    rw [List.getElem?_map, h]
    rfl
  obtain ⟨hb1, hg1⟩ := List.getElem?_eq_some_iff.mp hm1
  obtain ⟨hb2, hg2⟩ := List.getElem?_eq_some_iff.mp hm2
  exact hj2ne ((hnd.getElem_inj_iff).mp (hg1.trans hg2.symm))

theorem dead_after_set (l : List Entry) (i : Nat) (cid : Nat) (m m2 : Msg)
    (hget : l[i]? = some (cid, m))
    (hnd : (l.map Prod.fst).Nodup)
    (ts : List Nat)
    (hm2 : set_intersection m2.targets ts = []) :
    ∀ en ∈ l.set i (cid, m2), (en : Entry).1 = cid →
      set_intersection en.2.targets ts = [] := by
  intro en hen hfst
  obtain ⟨j, hj, hje⟩ := List.getElem_of_mem hen
  by_cases hij : j = i
  · subst hij
    have : en = (cid, m2) := by
      rw [← hje]
      exact List.getElem_set_self (h := hj)
    rw [this]
    exact hm2
  · have hj2 : l[j]? = some en := by
      have hjl : j < l.length := by simpa using hj
      rw [List.getElem?_eq_getElem hjl, ← hje, List.getElem_set_ne (fun hcon => hij hcon.symm)]
    have hm1 : (l.map Prod.fst)[j]? = some cid := by
      rw [List.getElem?_map, hj2]
      simpa using hfst
    have hm2i : (l.map Prod.fst)[i]? = some cid := by
      rw [List.getElem?_map, hget]
      rfl
    obtain ⟨hb1, hg1⟩ := List.getElem?_eq_some_iff.mp hm1
    obtain ⟨hb2, hg2⟩ := List.getElem?_eq_some_iff.mp hm2i
    exact absurd ((hnd.getElem_inj_iff).mp (hg1.trans hg2.symm)) hij

theorem encode_few_loop_preserves (lid mid : Nat) :
    ∀ fuel (q : TransmitQueue) (e : Encoder) count enc,
      unrel_on mid q →
      (q.messages.map Prod.fst).Nodup →
      unrel_on mid (encode_few_loop lid fuel q e count enc).queue ∧
      ((encode_few_loop lid fuel q e count enc).queue.messages.map Prod.fst).Nodup := by
  intro fuel
  induction fuel with
  | zero =>
      intro q e c enc hu hnd
      exact ⟨hu, hnd⟩
  | succ k ih =>
      intro q e c enc hu hnd
      rcases hcur : q.messages[q.next]? with _ | ⟨cid, m⟩
      · simp only [encode_few_loop, hcur]
        exact ⟨hu, hnd⟩
      · have hmem : (cid, m) ∈ q.messages := List.getElem?_mem hcur
        have hu_qe : unrel_on mid (TransmitQueue.erase
            { q with next := q.circular_increment q.next } q.next) :=
          fun en hen hf => hu en (mem_erase_messages
            { q with next := q.circular_increment q.next } q.next en hen) hf
        have hnd_qe : ((TransmitQueue.erase
            { q with next := q.circular_increment q.next } q.next).messages.map
              Prod.fst).Nodup := by
          rw [erase_messages_eq]
          exact List.Nodup.sublist ((List.eraseIdx_sublist _ _).map Prod.fst) hnd
        have hu_qs : unrel_on mid ({ q with
            next := q.circular_increment q.next,
            messages := q.messages.set q.next
              (cid, { m with targets :=
                m.targets.filter (fun t => !(q.targets.contains t)) }) } :
            TransmitQueue) := by
          intro en hen hf
          rcases List.mem_or_eq_of_mem_set hen with hz | hz
          · exact hu en hz hf
          · rw [hz] at hf ⊢
            exact hu (cid, m) hmem (by simpa using hf)
        have hnd_qs : ((({ q with
            next := q.circular_increment q.next,
            messages := q.messages.set q.next
              (cid, { m with targets :=
                m.targets.filter (fun t => !(q.targets.contains t)) }) } :
            TransmitQueue)).messages.map Prod.fst).Nodup := by
          have := map_fst_set_same q.messages q.next cid m
            { m with targets := m.targets.filter (fun t => !(q.targets.contains t)) } hcur
          dsimp only
          rw [this]
          exact hnd
        have hu_qse : unrel_on mid (TransmitQueue.erase { q with
            next := q.circular_increment q.next,
            messages := q.messages.set q.next
              (cid, { m with targets :=
                m.targets.filter (fun t => !(q.targets.contains t)) }) } q.next) :=
          fun en hen hf => hu_qs en (mem_erase_messages
            { q with
              next := q.circular_increment q.next,
              messages := q.messages.set q.next
                (cid, { m with targets :=
                  m.targets.filter (fun t => !(q.targets.contains t)) }) }
            q.next en hen) hf
        have hnd_qse : ((TransmitQueue.erase { q with
            next := q.circular_increment q.next,
            messages := q.messages.set q.next
              (cid, { m with targets :=
                m.targets.filter (fun t => !(q.targets.contains t)) }) }
            q.next).messages.map Prod.fst).Nodup := by
          rw [erase_messages_eq]
          exact List.Nodup.sublist ((List.eraseIdx_sublist _ _).map Prod.fst) hnd_qs
        simp only [encode_few_loop, hcur]
        split_ifs at *
        all_goals
          first
            | exact ⟨hu, hnd⟩
            | exact ⟨hu_qe, hnd_qe⟩
            | exact ⟨hu_qs, hnd_qs⟩
            | exact ⟨hu_qse, hnd_qse⟩
            | exact ih _ _ _ _ hu hnd
            | exact ih _ _ _ _ hu_qe hnd_qe
            | exact ih _ _ _ _ hu_qs hnd_qs
            | exact ih _ _ _ _ hu_qse hnd_qse

theorem count_append_ne (l : List Nat) (cid mid : Nat) (h : cid ≠ mid) :
    (l ++ [cid]).count mid = l.count mid := by
  rw [List.count_append, List.count_singleton]
  simp [h]

theorem encode_few_loop_dead (lid mid : Nat) :
    ∀ fuel (q : TransmitQueue) (e : Encoder) count enc,
      dead_on mid q →
      (encode_few_loop lid fuel q e count enc).encoded.count mid = enc.count mid ∧
      dead_on mid (encode_few_loop lid fuel q e count enc).queue := by
  intro fuel
  induction fuel with
  | zero =>
      intro q e c enc hd
      exact ⟨rfl, hd⟩
  | succ k ih =>
      intro q e c enc hd
      rcases hcur : q.messages[q.next]? with _ | ⟨cid, m⟩
      · simp only [encode_few_loop, hcur]
        exact ⟨by simp, hd⟩
      · have hmem : (cid, m) ∈ q.messages := List.getElem?_mem hcur
        have hd_q1 : dead_on mid
            ({ q with next := q.circular_increment q.next } : TransmitQueue) := hd
        have hcidimp : (set_intersection m.targets q.targets).isEmpty = false →
            cid ≠ mid := by
          intro hne hcc
          rw [hd (cid, m) hmem hcc] at hne
          cases hne
        have hcount : (set_intersection m.targets q.targets).isEmpty = false →
            ∀ l : List Nat, (l ++ [cid]).count mid = l.count mid :=
          fun hne l => count_append_ne l cid mid (hcidimp hne)
        have hd_qe : dead_on mid (TransmitQueue.erase
            { q with next := q.circular_increment q.next } q.next) := by
          intro en hen hf
          rw [erase_targets_eq]
          exact hd en (mem_erase_messages
            { q with next := q.circular_increment q.next } q.next en hen) hf
        have hd_qs : (set_intersection m.targets q.targets).isEmpty = false →
            dead_on mid ({ q with
              next := q.circular_increment q.next,
              messages := q.messages.set q.next
                (cid, { m with targets :=
                  m.targets.filter (fun t => !(q.targets.contains t)) }) } :
              TransmitQueue) := by
          intro hne en hen hf
          rcases List.mem_or_eq_of_mem_set hen with hz | hz
          · exact hd en hz hf
          · rw [hz] at hf
            exact absurd (by simpa using hf) (hcidimp hne)
        have hd_qse : (set_intersection m.targets q.targets).isEmpty = false →
            dead_on mid (TransmitQueue.erase { q with
              next := q.circular_increment q.next,
              messages := q.messages.set q.next
                (cid, { m with targets :=
                  m.targets.filter (fun t => !(q.targets.contains t)) }) } q.next) := by
          intro hne en hen hf
          rw [erase_targets_eq]
          exact hd_qs hne en (mem_erase_messages _ _ en hen) hf
        simp only [encode_few_loop, hcur]
        by_cases h1 : (set_intersection m.targets q.targets).isEmpty = true
        · rw [if_pos h1]
          by_cases h2 : (TransmitQueue.erase
              { q with next := q.circular_increment q.next } q.next).messages.isEmpty = true
          · rw [if_pos h2]
            exact ⟨rfl, hd_qe⟩
          · rw [if_neg h2]
            exact ih _ _ _ _ hd_qe
        · rw [if_neg h1]
          have hne : (set_intersection m.targets q.targets).isEmpty = false := by
            simpa using h1
          by_cases h2 : (try_encode e (set_intersection m.targets q.targets) m).1 = true
          · rw [if_pos h2]
            by_cases h3 : m.is_reliable = true
            · rw [if_pos h3]
              by_cases h4 : (cid == lid) = true
              · rw [if_pos h4]
                exact ⟨hcount hne enc, hd_q1⟩
              · rw [if_neg h4]
                exact ⟨((ih _ _ _ _ hd_q1).1).trans (hcount hne enc),
                  (ih _ _ _ _ hd_q1).2⟩
            · rw [if_neg h3]
              by_cases h4 : (m.targets.filter
                  (fun t => !(q.targets.contains t))).isEmpty = true
              · rw [if_pos h4]
                by_cases h5 : (TransmitQueue.erase { q with
                    next := q.circular_increment q.next,
                    messages := q.messages.set q.next
                      (cid, { m with targets :=
                        m.targets.filter (fun t => !(q.targets.contains t)) }) }
                    q.next).messages.isEmpty = true
                · rw [if_pos h5]
                  exact ⟨hcount hne enc, hd_qse hne⟩
                · rw [if_neg h5]
                  by_cases h6 : (cid == lid) = true
                  · rw [if_pos h6]
                    exact ⟨hcount hne enc, hd_qse hne⟩
                  · rw [if_neg h6]
                    exact ⟨((ih _ _ _ _ (hd_qse hne)).1).trans (hcount hne enc),
                      (ih _ _ _ _ (hd_qse hne)).2⟩
              · rw [if_neg h4]
                by_cases h5 : (cid == lid) = true
                · rw [if_pos h5]
                  exact ⟨hcount hne enc, hd_qs hne⟩
                · rw [if_neg h5]
                  exact ⟨((ih _ _ _ _ (hd_qs hne)).1).trans (hcount hne enc),
                    (ih _ _ _ _ (hd_qs hne)).2⟩
          · rw [if_neg h2]
            exact ⟨rfl, hd⟩

theorem count_append_self (l : List Nat) (mid : Nat) :
    (l ++ [mid]).count mid = l.count mid + 1 := by
  rw [List.count_append, List.count_singleton_self]

theorem filter_out_then_inter (ts targets : List Nat) :
    set_intersection (ts.filter (fun t => !(targets.contains t))) targets = [] := by
  simp only [set_intersection, List.filter_filter]
  rw [List.filter_eq_nil_iff]
  intro a ha
  cases hq : targets.contains a <;> simp [hq]

theorem encode_few_loop_unrel (lid mid : Nat) :
    ∀ fuel (q : TransmitQueue) (e : Encoder) count enc,
      unrel_on mid q →
      (q.messages.map Prod.fst).Nodup →
      (encode_few_loop lid fuel q e count enc).encoded.count mid ≤ enc.count mid + 1 ∧
      (enc.count mid + 1 ≤ (encode_few_loop lid fuel q e count enc).encoded.count mid →
        dead_on mid (encode_few_loop lid fuel q e count enc).queue) := by
  intro fuel
  induction fuel with
  | zero =>
      intro q e c enc hu hnd
      refine ⟨Nat.le_succ _, ?_⟩
      intro hcon
      simp only [encode_few_loop] at hcon
      exact absurd hcon (by omega)
  | succ k ih =>
      intro q e c enc hu hnd
      rcases hcur : q.messages[q.next]? with _ | ⟨cid, m⟩
      · simp only [encode_few_loop, hcur]
        refine ⟨Nat.le_succ _, ?_⟩
        intro hcon
        try dsimp only at hcon
        exact absurd hcon (by omega)
      · have hmem : (cid, m) ∈ q.messages := List.getElem?_mem hcur
        simp only [encode_few_loop, hcur]
        by_cases hcm : cid = mid
        · -- the tracked unreliable message is at the cursor
          have hrel : m.reliable = false := hu (cid, m) hmem hcm
          have hrelb : ¬(m.is_reliable = true) := by
            simp [Msg.is_reliable, hrel]
          by_cases h1 : (set_intersection m.targets q.targets).isEmpty = true
          · rw [if_pos h1]
            have hdead2 : dead_on mid (TransmitQueue.erase
                { q with next := q.circular_increment q.next } q.next) := by
              intro en hen hf
              rw [erase_messages_eq] at hen
              exact absurd (hf.trans hcm.symm)
                (not_fst_mem_eraseIdx q.messages q.next cid m hcur hnd en hen)
            by_cases h2 : (TransmitQueue.erase
                { q with next := q.circular_increment q.next } q.next).messages.isEmpty = true
            · rw [if_pos h2]
              exact ⟨Nat.le_succ _, fun _ => hdead2⟩
            · rw [if_neg h2]
              obtain ⟨hA, hB⟩ := encode_few_loop_dead lid mid k _ e c enc hdead2
              exact ⟨by rw [hA]; omega, fun _ => hB⟩
          · rw [if_neg h1]
            by_cases h2 : (try_encode e (set_intersection m.targets q.targets) m).1 = true
            · rw [if_pos h2, if_neg hrelb]
              have hm2 : set_intersection
                  (m.targets.filter (fun t => !(q.targets.contains t))) q.targets = [] :=
                filter_out_then_inter m.targets q.targets
              have hdset : dead_on mid ({ q with
                  next := q.circular_increment q.next,
                  messages := q.messages.set q.next
                    (cid, { m with targets :=
                      m.targets.filter (fun t => !(q.targets.contains t)) }) } :
                  TransmitQueue) := by
                intro en hen hf
                exact dead_after_set q.messages q.next cid m
                  { m with targets := m.targets.filter (fun t => !(q.targets.contains t)) }
                  hcur hnd q.targets hm2 en hen (hf.trans hcm.symm)
              have hdse : dead_on mid (TransmitQueue.erase { q with
                  next := q.circular_increment q.next,
                  messages := q.messages.set q.next
                    (cid, { m with targets :=
                      m.targets.filter (fun t => !(q.targets.contains t)) }) } q.next) := by
                intro en hen hf
                rw [erase_targets_eq]
                exact hdset en (mem_erase_messages _ _ en hen) hf
              have hacount : (enc ++ [cid]).count mid = enc.count mid + 1 := by
                rw [hcm]
                exact count_append_self enc mid
              by_cases h3 : (m.targets.filter
                  (fun t => !(q.targets.contains t))).isEmpty = true
              · rw [if_pos h3]
                by_cases h4 : (TransmitQueue.erase { q with
                    next := q.circular_increment q.next,
                    messages := q.messages.set q.next
                      (cid, { m with targets :=
                        m.targets.filter (fun t => !(q.targets.contains t)) }) }
                    q.next).messages.isEmpty = true
                · rw [if_pos h4]
                  exact ⟨by rw [hacount], fun _ => hdse⟩
                · rw [if_neg h4]
                  by_cases h5 : (cid == lid) = true
                  · rw [if_pos h5]
                    exact ⟨by rw [hacount], fun _ => hdse⟩
                  · rw [if_neg h5]
                    obtain ⟨hA, hB⟩ := encode_few_loop_dead lid mid k _
                      (try_encode e (set_intersection m.targets q.targets) m).2
                      ((c + 1) % 65536) (enc ++ [cid]) hdse
                    exact ⟨by rw [hA, hacount], fun _ => hB⟩
              · rw [if_neg h3]
                by_cases h5 : (cid == lid) = true
                · rw [if_pos h5]
                  exact ⟨by rw [hacount], fun _ => hdset⟩
                · rw [if_neg h5]
                  obtain ⟨hA, hB⟩ := encode_few_loop_dead lid mid k _
                    (try_encode e (set_intersection m.targets q.targets) m).2
                    ((c + 1) % 65536) (enc ++ [cid]) hdset
                  exact ⟨by rw [hA, hacount], fun _ => hB⟩
            · rw [if_neg h2]
              refine ⟨Nat.le_succ _, ?_⟩
              intro hcon
              try dsimp only at hcon
              exact absurd hcon (by omega)
        · -- a different message is at the cursor
          have hcnt : ∀ l : List Nat, (l ++ [cid]).count mid = l.count mid :=
            fun l => count_append_ne l cid mid hcm
          have hu_q1 : unrel_on mid
              ({ q with next := q.circular_increment q.next } : TransmitQueue) := hu
          have hnd_q1 : ((({ q with next := q.circular_increment q.next } :
              TransmitQueue)).messages.map Prod.fst).Nodup := hnd
          have hu_qe : unrel_on mid (TransmitQueue.erase
              { q with next := q.circular_increment q.next } q.next) :=
            fun en hen hf => hu en (mem_erase_messages
              { q with next := q.circular_increment q.next } q.next en hen) hf
          have hnd_qe : ((TransmitQueue.erase
              { q with next := q.circular_increment q.next } q.next).messages.map
                Prod.fst).Nodup := by
            rw [erase_messages_eq]
            exact List.Nodup.sublist ((List.eraseIdx_sublist _ _).map Prod.fst) hnd
          have hu_qs : unrel_on mid ({ q with
              next := q.circular_increment q.next,
              messages := q.messages.set q.next
                (cid, { m with targets :=
                  m.targets.filter (fun t => !(q.targets.contains t)) }) } :
              TransmitQueue) := by
            intro en hen hf
            rcases List.mem_or_eq_of_mem_set hen with hz | hz
            · exact hu en hz hf
            · rw [hz] at hf ⊢
              exact hu (cid, m) hmem (by simpa using hf)
          have hnd_qs : ((({ q with
              next := q.circular_increment q.next,
              messages := q.messages.set q.next
                (cid, { m with targets :=
                  m.targets.filter (fun t => !(q.targets.contains t)) }) } :
              TransmitQueue)).messages.map Prod.fst).Nodup := by
            have := map_fst_set_same q.messages q.next cid m
              { m with targets := m.targets.filter (fun t => !(q.targets.contains t)) } hcur
            dsimp only
            rw [this]
            exact hnd
          have hu_qse : unrel_on mid (TransmitQueue.erase { q with
              next := q.circular_increment q.next,
              messages := q.messages.set q.next
                (cid, { m with targets :=
                  m.targets.filter (fun t => !(q.targets.contains t)) }) } q.next) :=
            fun en hen hf => hu_qs en (mem_erase_messages
              { q with
                next := q.circular_increment q.next,
                messages := q.messages.set q.next
                  (cid, { m with targets :=
                    m.targets.filter (fun t => !(q.targets.contains t)) }) }
              q.next en hen) hf
          have hnd_qse : ((TransmitQueue.erase { q with
              next := q.circular_increment q.next,
              messages := q.messages.set q.next
                (cid, { m with targets :=
                  m.targets.filter (fun t => !(q.targets.contains t)) }) }
              q.next).messages.map Prod.fst).Nodup := by
            rw [erase_messages_eq]
            exact List.Nodup.sublist ((List.eraseIdx_sublist _ _).map Prod.fst) hnd_qs
          by_cases h1 : (set_intersection m.targets q.targets).isEmpty = true
          · rw [if_pos h1]
            by_cases h2 : (TransmitQueue.erase
                { q with next := q.circular_increment q.next } q.next).messages.isEmpty = true
            · rw [if_pos h2]
              refine ⟨Nat.le_succ _, ?_⟩
              intro hcon
              try dsimp only at hcon
              exact absurd hcon (by omega)
            · rw [if_neg h2]
              exact ih _ _ _ _ hu_qe hnd_qe
          · rw [if_neg h1]
            by_cases h2 : (try_encode e (set_intersection m.targets q.targets) m).1 = true
            · rw [if_pos h2]
              by_cases h3 : m.is_reliable = true
              · rw [if_pos h3]
                by_cases h4 : (cid == lid) = true
                · rw [if_pos h4]
                  refine ⟨by rw [hcnt enc]; omega, ?_⟩
                  intro hcon
                  rw [hcnt enc] at hcon
                  exact absurd hcon (by omega)
                · rw [if_neg h4]
                  obtain ⟨ihA, ihB⟩ := ih { q with next := q.circular_increment q.next }
                    (try_encode e (set_intersection m.targets q.targets) m).2
                    ((c + 1) % 65536) (enc ++ [cid]) hu_q1 hnd_q1
                  rw [hcnt enc] at ihA ihB
                  exact ⟨ihA, ihB⟩
              · rw [if_neg h3]
                by_cases h4 : (m.targets.filter
                    (fun t => !(q.targets.contains t))).isEmpty = true
                · rw [if_pos h4]
                  by_cases h5 : (TransmitQueue.erase { q with
                      next := q.circular_increment q.next,
                      messages := q.messages.set q.next
                        (cid, { m with targets :=
                          m.targets.filter (fun t => !(q.targets.contains t)) }) }
                      q.next).messages.isEmpty = true
                  · rw [if_pos h5]
                    refine ⟨by rw [hcnt enc]; omega, ?_⟩
                    intro hcon
                    rw [hcnt enc] at hcon
                    exact absurd hcon (by omega)
                  · rw [if_neg h5]
                    by_cases h6 : (cid == lid) = true
                    · rw [if_pos h6]
                      refine ⟨by rw [hcnt enc]; omega, ?_⟩
                      intro hcon
                      rw [hcnt enc] at hcon
                      exact absurd hcon (by omega)
                    · rw [if_neg h6]
                      obtain ⟨ihA, ihB⟩ := ih _
                        (try_encode e (set_intersection m.targets q.targets) m).2
                        ((c + 1) % 65536) (enc ++ [cid]) hu_qse hnd_qse
                      rw [hcnt enc] at ihA ihB
                      exact ⟨ihA, ihB⟩
                · rw [if_neg h4]
                  by_cases h5 : (cid == lid) = true
                  · rw [if_pos h5]
                    refine ⟨by rw [hcnt enc]; omega, ?_⟩
                    intro hcon
                    rw [hcnt enc] at hcon
                    exact absurd hcon (by omega)
                  · rw [if_neg h5]
                    obtain ⟨ihA, ihB⟩ := ih _
                      (try_encode e (set_intersection m.targets q.targets) m).2
                      ((c + 1) % 65536) (enc ++ [cid]) hu_qs hnd_qs
                    rw [hcnt enc] at ihA ihB
                    exact ⟨ihA, ihB⟩
            · rw [if_neg h2]
              refine ⟨Nat.le_succ _, ?_⟩
              intro hcon
              try dsimp only at hcon
              exact absurd hcon (by omega)

theorem encode_few_dead (q : TransmitQueue) (e : Encoder) (mid : Nat)
    (hd : dead_on mid q) :
    (q.encode_few e).encoded.count mid = 0 ∧ dead_on mid (q.encode_few e).queue := by
  unfold TransmitQueue.encode_few
  by_cases hemp : q.messages.isEmpty = true
  · rw [if_pos hemp]
    exact ⟨rfl, hd⟩
  · rw [if_neg hemp]
    exact ⟨(encode_few_loop_dead _ mid _ q e 0 [] hd).1,
      (encode_few_loop_dead _ mid _ q e 0 [] hd).2⟩

theorem encode_few_unrel (q : TransmitQueue) (e : Encoder) (mid : Nat)
    (hu : unrel_on mid q) (hnd : (q.messages.map Prod.fst).Nodup) :
    (q.encode_few e).encoded.count mid ≤ 1 ∧
    (1 ≤ (q.encode_few e).encoded.count mid → dead_on mid (q.encode_few e).queue) ∧
    unrel_on mid (q.encode_few e).queue ∧
    ((q.encode_few e).queue.messages.map Prod.fst).Nodup := by
  unfold TransmitQueue.encode_few
  by_cases hemp : q.messages.isEmpty = true
  · rw [if_pos hemp]
    exact ⟨by simp, fun hcon => absurd hcon (by simp), hu, hnd⟩
  · rw [if_neg hemp]
    obtain ⟨b1, b2⟩ := encode_few_loop_unrel _ mid _ q e 0 [] hu hnd
    obtain ⟨b3, b4⟩ := encode_few_loop_preserves _ mid _ q e 0 [] hu hnd
    exact ⟨b1, fun hcon => b2 (by simpa using hcon), b3, b4⟩

theorem run_queue_dead (mid : Nat) :
    ∀ (es : List Encoder) (q : TransmitQueue), dead_on mid q →
      ((run_queue q es).2.flatten.count mid = 0) ∧ dead_on mid (run_queue q es).1 := by
  intro es
  induction es with
  | nil =>
      intro q hd
      exact ⟨rfl, hd⟩
  | cons e es ih =>
      intro q hd
      obtain ⟨h1, h2⟩ := encode_few_dead q e mid hd
      obtain ⟨h3, h4⟩ := ih _ h2
      constructor
      · simp only [run_queue, List.flatten_cons, List.count_append]
        rw [h1, h3]
      · simp only [run_queue]
        exact h4

/-- C4: over any sequence of encode_few calls on one queue, an unreliable
message (identified by its node tag) is successfully encoded at most once:
on its first successful encoding the link's targets are removed from its
target set (and the message erased if that empties it), so it never
traverses the link again in later passes. -/
theorem C4_unreliable_encoded_at_most_once (q : TransmitQueue) (es : List Encoder)
    (mid : Nat)
    (hnd : (q.messages.map Prod.fst).Nodup)
    (hu : unrel_on mid q) :
    ((run_queue q es).2.flatten).count mid ≤ 1 := by
  induction es generalizing q with
  | nil => simp [run_queue]
  | cons e es ih =>
      obtain ⟨b1, b2, b3, b4⟩ := encode_few_unrel q e mid hu hnd
      simp only [run_queue, List.flatten_cons, List.count_append]
      by_cases hzero : (q.encode_few e).encoded.count mid = 0
      · rw [hzero]
        simpa using ih _ b4 b3
      · have h1 : (q.encode_few e).encoded.count mid = 1 := by omega
        have hdead := b2 (by omega)
        obtain ⟨r0, -⟩ := run_queue_dead mid es _ hdead
        rw [h1, r0]

/-- Witness for C4: a queue holding one unreliable message with targets
{5, 9} on a link reaching {5}; across two encode_few calls the message is
encoded exactly once. -/
theorem C4_unreliable_encoded_at_most_once_witness :
    ((⟨[5], [(7, ⟨10, [5, 9], [], false⟩)], 0⟩ :
        TransmitQueue).messages.map Prod.fst).Nodup ∧
    unrel_on 7 ⟨[5], [(7, ⟨10, [5, 9], [], false⟩)], 0⟩ ∧
    ((run_queue ⟨[5], [(7, ⟨10, [5, 9], [], false⟩)], 0⟩
        [⟨66, [], false⟩, ⟨66, [], false⟩]).2.flatten).count 7 ≤ 1 :=
  ⟨by decide,
    by
      intro en hen hmid
      rw [List.mem_singleton] at hen
      subst hen
      rfl,
    C4_unreliable_encoded_at_most_once ⟨[5], [(7, ⟨10, [5, 9], [], false⟩)], 0⟩
      [⟨66, [], false⟩, ⟨66, [], false⟩] 7 (by decide)
      (by
        intro en hen hmid
        rw [List.mem_singleton] at hen
        subst hen
        rfl)⟩

end Club
